import Mathlib

/-!
Verification development for the snapshot-to-transaction inference engine and
daily portfolio valuation engine of a stock-portfolio analysis tool
(`stocks_analysis/analysis.py`, `stocks_analysis/models.py`,
`stocks_analysis/market_data.py`).

Embedding conventions:
* calendar dates are modelled as natural numbers (day ordinals); `d + 1` is the
  next calendar day, and `date.isoformat` grouping keys are the dates themselves
  (ISO formatting is injective on dates);
* Python `float` prices/amounts are modelled as exact rationals `ℚ`;
* Python `int` quantities are modelled as `ℤ`;
* Python `dict` values keyed by strings are modelled as association lists with
  Python's insertion-order/overwrite semantics (`dictInsert`), so that key
  iteration order and last-write-wins behaviour are preserved exactly;
* the scipy `brentq` root-finder used by `compute_xirr` is an external
  collaborator, abstracted as a fallible solver parameter.
-/

namespace StocksAnalysis

/-- `Transaction.type ∈ {"BUY", "SELL"}` in the Python source. -/
inductive TxnType where
  | BUY : TxnType
  | SELL : TxnType
deriving DecidableEq, Repr

/-- `models.SnapshotHolding` (the derived P&L fields `pnl`, `pnl_percent`,
`day_change`, `day_change_percent`, unused by the analysis engine, are
omitted). -/
structure SnapshotHolding where
  date : ℕ
  instrument : String
  quantity : ℤ
  avg_cost : ℚ
  ltp : ℚ
  current_value : ℚ
  exchange : String
deriving DecidableEq, Repr

/-- `models.Snapshot`. -/
structure Snapshot where
  date : ℕ
  holdings : List SnapshotHolding
deriving DecidableEq, Repr

/-- `models.Transaction`. -/
structure Transaction where
  date : ℕ
  instrument : String
  type : TxnType
  quantity : ℤ
  price : ℚ
  amount : ℚ
deriving DecidableEq, Repr

/-- `models.DailyPortfolioValue`. -/
structure DailyPortfolioValue where
  date : ℕ
  total_value : ℚ
  total_cost : ℚ
  daily_return : ℚ
deriving DecidableEq, Repr

/-! ### Python dicts as association lists

A Python `dict` is modelled as an association list with Python's insertion
semantics: assigning to an existing key overwrites its value in place (the key
keeps its original position), assigning a fresh key appends it at the end.
Iteration over `.items()` is iteration over the association list. -/

/-- `m[k] = v` on a Python dict: overwrite in place if the key is present
(keeping its original position), otherwise append at the end. -/
def dictInsert {κ α : Type} [BEq κ] (m : List (κ × α)) (k : κ) (v : α) :
    List (κ × α) :=
  if m.any (fun p => p.1 == k) then
    m.map (fun p => if p.1 == k then (k, v) else p)
  else
    m ++ [(k, v)]

/-- `m.get(k)` on a Python dict (keys are unique, so the first match is the
entry). -/
def dictGet {κ α : Type} [BEq κ] (m : List (κ × α)) (k : κ) : Option α :=
  (m.find? (fun p => p.1 == k)).map (fun p => p.2)

/-- `{h.instrument: h for h in hs}`: a Python dict comprehension keyed by
instrument. -/
def toDict (hs : List SnapshotHolding) : List (String × SnapshotHolding) :=
  hs.foldl (fun m h => dictInsert m h.instrument h) []

/-! ### Transaction inferrer (`analysis._infer_between_snapshots`,
`analysis.infer_transactions`) -/

/-- Body of the first loop of `_infer_between_snapshots`: the transactions (zero
or one) emitted for one entry of the `curr` instrument map. -/
def inferForCurrEntry (prev_map : List (String × SnapshotHolding))
    (currDate : ℕ) (e : String × SnapshotHolding) : List Transaction :=
  let instrument := e.1
  let curr_h := e.2
  match dictGet prev_map instrument with
  | none =>
      -- New instrument → BUY at avg_cost
      [⟨currDate, instrument, TxnType.BUY, curr_h.quantity, curr_h.avg_cost,
        -(curr_h.avg_cost * (curr_h.quantity : ℚ))⟩]
  | some prev_h =>
      if prev_h.quantity < curr_h.quantity then
        -- Quantity increased → BUY additional
        let qty_diff : ℤ := curr_h.quantity - prev_h.quantity
        let estimated_price : ℚ :=
          (curr_h.avg_cost * (curr_h.quantity : ℚ) -
            prev_h.avg_cost * (prev_h.quantity : ℚ)) / (qty_diff : ℚ)
        let price : ℚ := if estimated_price ≤ 0 then curr_h.avg_cost else estimated_price
        [⟨currDate, instrument, TxnType.BUY, qty_diff, price, -(price * (qty_diff : ℚ))⟩]
      else if curr_h.quantity < prev_h.quantity then
        -- Quantity decreased → SELL at previous LTP
        let qty_diff : ℤ := prev_h.quantity - curr_h.quantity
        [⟨currDate, instrument, TxnType.SELL, qty_diff, prev_h.ltp,
          prev_h.ltp * (qty_diff : ℚ)⟩]
      else
        -- unchanged, no transaction
        []

/-- `analysis._infer_between_snapshots`: diff two consecutive snapshots. -/
def inferBetweenSnapshots (prev curr : Snapshot) : List Transaction :=
  let prev_map := toDict prev.holdings
  let curr_map := toDict curr.holdings
  (curr_map.map (inferForCurrEntry prev_map curr.date)).flatten ++
    ((prev_map.filter (fun p => (dictGet curr_map p.1).isNone)).map
      (fun p =>
        ⟨curr.date, p.1, TxnType.SELL, p.2.quantity, p.2.ltp,
          p.2.ltp * (p.2.quantity : ℚ)⟩))

/-- The `for i in range(1, len(snapshots))` diffing loop of
`infer_transactions`, carrying the previous snapshot. -/
def inferPairs : Snapshot → List Snapshot → List Transaction
  | _, [] => []
  | prev, curr :: rest => inferBetweenSnapshots prev curr ++ inferPairs curr rest

/-- `analysis.infer_transactions`: baseline BUYs for the first snapshot, then
diffs of consecutive snapshots. -/
def infer_transactions : List Snapshot → List Transaction
  | [] => []
  | s0 :: rest =>
      (s0.holdings.map (fun h =>
        ⟨s0.date, h.instrument, TxnType.BUY, h.quantity, h.avg_cost,
          -(h.avg_cost * (h.quantity : ℚ))⟩)) ++ inferPairs s0 rest

/-! ### Snapshot builder (`analysis.parse_snapshots_from_rows`)

Raw sheet rows are parsed field-by-field by `SnapshotHolding.from_sheet_row`
(pure destructuring of one row into one `SnapshotHolding`); the rows enter the
embedding already in parsed form.  Grouping keys are dates themselves:
the Python code groups by `sh.date.isoformat()` and ISO formatting is injective
on dates. -/

/-- `defaultdict(list)` grouping: `by_date[key(x)].append(x)` over the list, in
order. -/
def groupByKey {α : Type} (key : α → ℕ) (l : List α) : List (ℕ × List α) :=
  l.foldl (fun m x => dictInsert m (key x) (((dictGet m (key x)).getD []) ++ [x])) []

/-- `analysis.parse_snapshots_from_rows`: group parsed rows by date, build one
`Snapshot` per group (dated by the group's first row; groups are never empty),
sort ascending by date. -/
def parse_snapshots_from_rows (rows : List SnapshotHolding) : List Snapshot :=
  if rows.isEmpty then []
  else
    let by_date := groupByKey SnapshotHolding.date rows
    let snapshots := by_date.map (fun p =>
      Snapshot.mk (match p.2 with | h :: _ => h.date | [] => 0) p.2)
    snapshots.mergeSort (fun a b => a.date ≤ b.date)

/-! ### Ticker mapping (`market_data.nse_to_yfinance_ticker`) -/

/-- `market_data.nse_to_yfinance_ticker`: the two special benchmark index names
map to the benchmark ticker `^NSEI`; exchange `BSE` maps to suffix `.BO`, all
others to `.NS`. -/
def nse_to_yfinance_ticker (instrument : String) (exchange : String) : String :=
  let instrument := instrument.trim
  if instrument = "NIFTY 50" ∨ instrument = "NIFTY50" then "^NSEI"
  else instrument ++ (if exchange = "BSE" then ".BO" else ".NS")

/-! ### Daily series builder (`analysis.build_daily_portfolio_series`) and
price resolver (`analysis._resolve_price`) -/

/-- The `instrument → ticker` map of `build_daily_portfolio_series` (first
occurrence of each instrument wins). -/
def buildInstrumentTickers (snapshots : List Snapshot) : List (String × String) :=
  snapshots.foldl
    (fun m snap => snap.holdings.foldl
      (fun m h =>
        if (dictGet m h.instrument).isSome then m
        else dictInsert m h.instrument (nse_to_yfinance_ticker h.instrument h.exchange))
      m)
    []

/-- The `instrument → date → ltp` fallback map of
`build_daily_portfolio_series` (`ltp_fallback[h.instrument][snap.date] =
h.ltp`, later snapshots overwriting earlier ones). -/
def buildLtpFallback (snapshots : List Snapshot) : List (String × List (ℕ × ℚ)) :=
  snapshots.foldl
    (fun m snap => snap.holdings.foldl
      (fun m h =>
        dictInsert m h.instrument
          (dictInsert ((dictGet m h.instrument).getD []) snap.date h.ltp))
      m)
    []

/-- The market-data tier of `_resolve_price`: exact hit for `(ticker, dt)`,
else forward-fill from the most recent date `≤ dt` in the ticker's price map;
`none` when the ticker is absent or has no date `≤ dt`. -/
def resolveMarket (ticker : String) (dt : ℕ) (prices : List (String × List (ℕ × ℚ))) :
    Option ℚ :=
  match dictGet prices ticker with
  | some tp =>
      match dictGet tp dt with
      | some p => some p
      | none => (((tp.map Prod.fst).filter (fun d => d ≤ dt)).max?).bind
          (fun m => dictGet tp m)
  | none => none

/-- The snapshot-LTP tier of `_resolve_price`: the LTP recorded for the
instrument at the most recent snapshot date `≤ dt`. -/
def resolveLtp (instrument : String) (dt : ℕ)
    (ltp_fallback : List (String × List (ℕ × ℚ))) : Option ℚ :=
  match dictGet ltp_fallback instrument with
  | some fm => (((fm.map Prod.fst).filter (fun d => d ≤ dt)).max?).bind
      (fun m => dictGet fm m)
  | none => none

/-- `analysis._resolve_price`: market data → forward-fill → snapshot LTP
fallback → `none`. -/
def resolvePrice (ticker instrument : String) (dt : ℕ)
    (prices ltp_fallback : List (String × List (ℕ × ℚ))) : Option ℚ :=
  match resolveMarket ticker dt prices with
  | some p => some p
  | none => resolveLtp instrument dt ltp_fallback

/-- Modelled from the spec's words (§4.3 Price Resolver), for comparison with
`resolvePrice`: "(a) exact price-source hit for (ticker, date); (b) most recent
price-source date ≤ requested date; (c) most recent snapshot LTP for that
instrument at a date ≤ requested date; (d) absent." -/
def specResolvePrice (ticker instrument : String) (dt : ℕ)
    (prices ltp_fallback : List (String × List (ℕ × ℚ))) : Option ℚ :=
  let exactHit : Option ℚ := (dictGet prices ticker).bind (fun tp => dictGet tp dt)
  let forwardFill : Option ℚ := (dictGet prices ticker).bind (fun tp =>
    (((tp.map Prod.fst).filter (fun d => d ≤ dt)).max?).bind (fun m => dictGet tp m))
  let ltpTier : Option ℚ := (dictGet ltp_fallback instrument).bind (fun fm =>
    (((fm.map Prod.fst).filter (fun d => d ≤ dt)).max?).bind (fun m => dictGet fm m))
  (exactHit.or forwardFill).or ltpTier

/-- One transaction applied to the `(holdings_state, total_cost)` pair of
`build_daily_portfolio_series`: BUY adds quantity and accumulates cost; SELL
subtracts quantity, clamps the cost floor at 0, and deletes the instrument
once its quantity is `≤ 0`. -/
def applyTxn (hs : List (String × ℤ)) (tc : ℚ) (t : Transaction) :
    List (String × ℤ) × ℚ :=
  match t.type with
  | TxnType.BUY =>
      (dictInsert hs t.instrument (((dictGet hs t.instrument).getD 0) + t.quantity),
        tc + t.price * (t.quantity : ℚ))
  | TxnType.SELL =>
      let qty_before := (dictGet hs t.instrument).getD 0
      let newq := qty_before - t.quantity
      let hs1 := dictInsert hs t.instrument newq
      let tc1 := max 0 (tc - t.price * (t.quantity : ℚ))
      (if newq ≤ 0 then hs1.filter (fun p => p.1 != t.instrument) else hs1, tc1)

/-- All of one day's transactions applied in order (the
`for txn in txn_by_date.get(current, [])` loop). -/
def applyTxns (hs : List (String × ℤ)) (tc : ℚ) (txns : List Transaction) :
    List (String × ℤ) × ℚ :=
  txns.foldl (fun acc t => applyTxn acc.1 acc.2 t) (hs, tc)

/-- One day's mark-to-market value: `Σ price·qty` over the current holdings,
an unresolvable price contributing zero. -/
def dayValue (tickers : List (String × String))
    (prices ltp_fallback : List (String × List (ℕ × ℚ)))
    (hs : List (String × ℤ)) (current : ℕ) : ℚ :=
  (hs.map (fun p =>
    match resolvePrice ((dictGet tickers p.1).getD "") p.1 current prices ltp_fallback with
    | some price => price * (p.2 : ℚ)
    | none => 0)).sum

/-- The loop state of `build_daily_portfolio_series`: the holdings map, the
commingled cost scalar, and the previous day's total value (`None` before the
first day). -/
structure DayState where
  holdings_state : List (String × ℤ)
  total_cost : ℚ
  prev_value : Option ℚ
deriving DecidableEq, Repr

/-- One iteration of the `while current <= end` loop: apply the day's
transactions, value the portfolio, and compute the daily return. -/
def dayStep (tickers : List (String × String))
    (prices ltp_fallback : List (String × List (ℕ × ℚ)))
    (txn_by_date : List (ℕ × List Transaction)) (st : DayState) (current : ℕ) :
    DayState × DailyPortfolioValue :=
  let applied := applyTxns st.holdings_state st.total_cost
    ((dictGet txn_by_date current).getD [])
  let total_value := dayValue tickers prices ltp_fallback applied.1 current
  let daily_return : ℚ :=
    match st.prev_value with
    | some pv => if 0 < pv then (total_value - pv) / pv else 0
    | none => 0
  (⟨applied.1, applied.2, some total_value⟩,
   ⟨current, total_value, applied.2, daily_return⟩)

/-- The `while current <= end` loop over the list of calendar days. -/
def dayLoop (tickers : List (String × String))
    (prices ltp_fallback : List (String × List (ℕ × ℚ)))
    (txn_by_date : List (ℕ × List Transaction)) :
    DayState → List ℕ → List DailyPortfolioValue
  | _, [] => []
  | st, d :: rest =>
      let step := dayStep tickers prices ltp_fallback txn_by_date st d
      step.2 :: dayLoop tickers prices ltp_fallback txn_by_date step.1 rest

/-- `analysis.build_daily_portfolio_series`: reconstruct daily portfolio values
over every calendar day of `[startD, endD]`. -/
def build_daily_portfolio_series (snapshots : List Snapshot)
    (transactions : List Transaction) (prices : List (String × List (ℕ × ℚ)))
    (startD endD : ℕ) : List DailyPortfolioValue :=
  if snapshots.isEmpty then []
  else
    dayLoop (buildInstrumentTickers snapshots) prices (buildLtpFallback snapshots)
      (groupByKey Transaction.date transactions) ⟨[], 0, none⟩
      ((List.range (endD + 1 - startD)).map (fun i => startD + i))

/-! ### Max drawdown (`analysis.compute_max_drawdown`) -/

/-- The loop body of `compute_max_drawdown`: update the running maximum, then
propose `1 − value/running_max` as a drawdown candidate (only when the running
maximum is positive), keeping the strictly deeper of it and the current
maximum drawdown (so ties keep the earlier trough date). -/
def mddStep (acc : ℚ × ℚ × Option ℕ) (dpv : DailyPortfolioValue) :
    ℚ × ℚ × Option ℕ :=
  let running_max := if acc.1 < dpv.total_value then dpv.total_value else acc.1
  if 0 < running_max then
    let dd := 1 - dpv.total_value / running_max
    if acc.2.1 < dd then (running_max, dd, some dpv.date)
    else (running_max, acc.2.1, acc.2.2)
  else (running_max, acc.2.1, acc.2.2)

/-- `analysis.compute_max_drawdown`: running-maximum scan tracking the deepest
drawdown and its (first) date. -/
def compute_max_drawdown (series : List DailyPortfolioValue) : ℚ × Option ℕ :=
  match series with
  | [] => (0, none)
  | first :: _ =>
      let r := series.foldl mddStep (first.total_value, 0, none)
      (r.2.1, r.2.2)

/-- The per-day drawdown candidates of the value series, paired with their
dates: the running maximum starts at `rm` and the candidate on a day with
nonpositive running maximum is `0` (the code proposes no candidate there, and
`0` can never win a strict comparison against the nonnegative current
maximum). -/
def ddListAux (rm : ℚ) : List DailyPortfolioValue → List (ℚ × ℕ)
  | [] => []
  | dpv :: rest =>
      let rm' := max rm dpv.total_value
      (if 0 < rm' then 1 - dpv.total_value / rm' else 0, dpv.date) ::
        ddListAux rm' rest

/-- Modelled from the spec's words (§4.5 Max Drawdown), for comparison with
`compute_max_drawdown`: drawdown `= 1 − value/running_max` over the series, the
result is the deepest drawdown together with the date of its first occurrence
(`none` when no positive drawdown occurs). -/
def maxDrawdownSpec (series : List DailyPortfolioValue) : ℚ × Option ℕ :=
  match series with
  | [] => (0, none)
  | first :: _ =>
      let dds := ddListAux first.total_value series
      let m := dds.foldl (fun a p => max a p.1) 0
      if 0 < m then (m, (dds.find? (fun p => p.1 == m)).map (fun p => p.2))
      else (m, none)

/-! ### XIRR (`analysis.compute_xirr`) -/

/-- The cash-flow list of `compute_xirr`: every transaction's signed amount,
then the terminal value at the end date. -/
def xirrCashflows (transactions : List Transaction) (current_value : ℚ)
    (end_date : ℕ) : List (ℕ × ℚ) :=
  (transactions.map (fun t => (t.date, t.amount))) ++ [(end_date, current_value)]

/-- `analysis.compute_xirr`.  The scipy `brentq` bracketed root-finder over the
floating-point NPV function on `[-0.99, 10.0]` is an external collaborator; it
is abstracted as `solver`, returning `none` exactly when the Python call raises
`ValueError`/`RuntimeError` (failure to bracket or to converge), which the code
catches and converts to the degraded default `0.0`. -/
def compute_xirr (solver : List (ℕ × ℚ) → Option ℚ)
    (transactions : List Transaction) (current_value : ℚ) (end_date : ℕ) : ℚ :=
  if transactions.isEmpty then 0
  else
    match solver (xirrCashflows transactions current_value end_date) with
    | some r => r
    | none => 0

/-! ### Observation helpers for the claims -/

/-- One replay step for one instrument's position: a BUY of the instrument adds
its quantity, a SELL subtracts it, any other instrument's transaction leaves it
unchanged. -/
def replayStep (i : String) (q : ℤ) (t : Transaction) : ℤ :=
  if t.instrument == i then
    match t.type with
    | TxnType.BUY => q + t.quantity
    | TxnType.SELL => q - t.quantity
  else q

/-- Replay a transaction list against one instrument's position, starting from
an empty portfolio, in list order. -/
def replayQty (txns : List Transaction) (i : String) : ℤ :=
  txns.foldl (replayStep i) 0

/-- The quantity a snapshot records for an instrument (`0` if the instrument is
absent from the snapshot). -/
def snapQty (s : Snapshot) (i : String) : ℤ :=
  match s.holdings.find? (fun h => h.instrument == i) with
  | some h => h.quantity
  | none => 0

/-! ## Lemmas about the Python-dict model -/

section DictLemmas

variable {κ α : Type} [BEq κ] [LawfulBEq κ]

theorem any_key_false_iff (m : List (κ × α)) (k : κ) :
    m.any (fun p => p.1 == k) = false ↔ ∀ p ∈ m, p.1 ≠ k := by
  rw [List.any_eq_false]
  constructor
  · intro h p hp hk
    exact h p hp (by simp [hk])
  · intro h p hp hk
    exact h p hp (by simpa using hk)

theorem find?_overwrite_self (m : List (κ × α)) (k : κ) (v : α)
    (h : m.any (fun p => p.1 == k) = true) :
    (m.map (fun p => if p.1 == k then (k, v) else p)).find?
      (fun p => p.1 == k) = some (k, v) := by
  induction m with
  | nil => simp at h
  | cons p m ih =>
    cases hp : (p.1 == k) with
    | true => simp [List.find?_cons, hp]
    | false =>
      have hm : m.any (fun p => p.1 == k) = true := by
        simpa [List.any_cons, hp] using h
      simpa [List.find?_cons, hp] using ih hm

theorem find?_overwrite_ne (m : List (κ × α)) (k k' : κ) (v : α) (hne : k' ≠ k) :
    (m.map (fun p => if p.1 == k then (k, v) else p)).find?
      (fun p => p.1 == k') = m.find? (fun p => p.1 == k') := by
  induction m with
  | nil => rfl
  | cons p m ih =>
    cases hp : (p.1 == k) with
    | true =>
      have hpk : p.1 = k := by simpa using hp
      have h1 : ((k, v).1 == k') = false := by
        rw [beq_eq_false_iff_ne]
        exact fun hh => hne hh.symm
      have h2 : (p.1 == k') = false := by
        rw [beq_eq_false_iff_ne, hpk]
        exact fun hh => hne hh.symm
      simpa [List.find?_cons, hp, h1, h2] using ih
    | false =>
      cases hk' : (p.1 == k') with
      | true => simp [List.find?_cons, hp, hk']
      | false => simpa [List.find?_cons, hp, hk'] using ih

theorem dictGet_dictInsert_self (m : List (κ × α)) (k : κ) (v : α) :
    dictGet (dictInsert m k v) k = some v := by
  unfold dictInsert dictGet
  cases h : m.any (fun p => p.1 == k) with
  | true =>
    rw [if_pos rfl, find?_overwrite_self m k v h]
    rfl
  | false =>
    rw [if_neg (by simp), List.find?_append]
    have hnone : m.find? (fun p => p.1 == k) = none := by
      rw [List.find?_eq_none]
      intro p hp hk
      exact (any_key_false_iff m k).mp h p hp (by simpa using hk)
    simp [hnone]

theorem dictGet_dictInsert_ne (m : List (κ × α)) (k k' : κ) (v : α)
    (hne : k' ≠ k) : dictGet (dictInsert m k v) k' = dictGet m k' := by
  unfold dictInsert dictGet
  cases h : m.any (fun p => p.1 == k) with
  | true => rw [if_pos rfl, find?_overwrite_ne m k k' v hne]
  | false =>
    rw [if_neg (by simp), List.find?_append]
    have hone : List.find? (fun p => p.1 == k') [(k, v)] = none := by
      have hkk : ((k, v).1 == k') = false := by
        rw [beq_eq_false_iff_ne]
        exact fun hh => hne hh.symm
      simp [List.find?_cons, hkk]
    cases hm : m.find? (fun p => p.1 == k') with
    | some p => simp
    | none => simp [hone]

theorem mem_dictInsert (m : List (κ × α)) (k : κ) (v : α) (p : κ × α)
    (hp : p ∈ dictInsert m k v) : p = (k, v) ∨ p ∈ m := by
  unfold dictInsert at hp
  by_cases h : m.any (fun q => q.1 == k) = true
  · rw [if_pos h] at hp
    rcases List.mem_map.mp hp with ⟨q, hq, rfl⟩
    by_cases hqk : (q.1 == k) = true
    · left; simp [hqk]
    · right; simpa [hqk] using hq
  · rw [if_neg h] at hp
    rcases List.mem_append.mp hp with h1 | h1
    · right; exact h1
    · left; simpa using h1

theorem keys_dictInsert_overwrite (m : List (κ × α)) (k : κ) (v : α)
    (h : m.any (fun p => p.1 == k) = true) :
    (dictInsert m k v).map Prod.fst = m.map Prod.fst := by
  unfold dictInsert
  rw [if_pos h, List.map_map]
  apply List.map_congr_left
  intro p _
  by_cases hp : (p.1 == k) = true
  · have : p.1 = k := by simpa using hp
    simp [hp, this]
  · simp [hp]

theorem keys_dictInsert_append (m : List (κ × α)) (k : κ) (v : α)
    (h : ¬ m.any (fun p => p.1 == k) = true) :
    (dictInsert m k v).map Prod.fst = m.map Prod.fst ++ [k] := by
  unfold dictInsert
  rw [if_neg h]
  simp

theorem keys_nodup_dictInsert (m : List (κ × α)) (k : κ) (v : α)
    (h : (m.map Prod.fst).Nodup) : ((dictInsert m k v).map Prod.fst).Nodup := by
  by_cases hk : m.any (fun p => p.1 == k) = true
  · rw [keys_dictInsert_overwrite m k v hk]
    exact h
  · rw [keys_dictInsert_append m k v hk]
    rw [List.nodup_append]
    refine ⟨h, List.nodup_singleton k, ?_⟩
    intro x hx hx1
    have hxk : x = k := by simpa using hx1
    rcases List.mem_map.mp hx with ⟨p, hp, rfl⟩
    have hkf : m.any (fun p => p.1 == k) = false := by
      rwa [Bool.not_eq_true] at hk
    exact (any_key_false_iff m k).mp hkf p hp hxk

theorem dictGet_of_mem (m : List (κ × α)) (p : κ × α)
    (hnd : (m.map Prod.fst).Nodup) (hp : p ∈ m) : dictGet m p.1 = some p.2 := by
  induction m with
  | nil => simp at hp
  | cons q m ih =>
    rcases List.mem_cons.mp hp with rfl | hp'
    · simp [dictGet, List.find?_cons]
    · have hq : (q.1 == p.1) = false := by
        rw [beq_eq_false_iff_ne]
        intro hqp
        have : p.1 ∈ m.map Prod.fst := List.mem_map.mpr ⟨p, hp', rfl⟩
        rw [← hqp] at this
        exact (List.nodup_cons.mp (by simpa using hnd)).1 this
      have := ih (List.nodup_cons.mp (by simpa using hnd)).2 hp'
      simpa [dictGet, List.find?_cons, hq] using this

theorem dictGet_eq_some_mem (m : List (κ × α)) (k : κ) (v : α)
    (h : dictGet m k = some v) : (k, v) ∈ m := by
  unfold dictGet at h
  cases hf : m.find? (fun p => p.1 == k) with
  | none => rw [hf] at h; simp at h
  | some p =>
    rw [hf] at h
    have hm := List.mem_of_find?_eq_some hf
    have hk : p.1 = k := by simpa using List.find?_some hf
    have hv : p.2 = v := by simpa using h
    have : p = (k, v) := Prod.ext hk hv
    rw [← this]
    exact hm

end DictLemmas

/-! ## Lemmas about `toDict` -/

theorem toDict_eq_map_aux (hs : List SnapshotHolding) :
    ∀ acc : List (String × SnapshotHolding),
    (hs.map SnapshotHolding.instrument).Nodup →
    (∀ h ∈ hs, ∀ p ∈ acc, p.1 ≠ h.instrument) →
    hs.foldl (fun m h => dictInsert m h.instrument h) acc
      = acc ++ hs.map (fun h => (h.instrument, h)) := by
  induction hs with
  | nil =>
    intro acc _ _
    simp
  | cons h t ih =>
    intro acc hnd hdisj
    have hnd' : (∀ x ∈ t, ¬ x.instrument = h.instrument) ∧
        (t.map SnapshotHolding.instrument).Nodup := by
      simpa using hnd
    have hany : acc.any (fun p => p.1 == h.instrument) = false := by
      rw [any_key_false_iff]
      intro p hp
      exact hdisj h (by simp) p hp
    have step : dictInsert acc h.instrument h = acc ++ [(h.instrument, h)] := by
      unfold dictInsert
      rw [if_neg (by simp [hany])]
    rw [List.foldl_cons, step,
      ih (acc ++ [(h.instrument, h)]) hnd'.2 ?_]
    · simp
    · intro g hg p hp
      rcases List.mem_append.mp hp with hp1 | hp1
      · exact hdisj g (List.mem_cons_of_mem _ hg) p hp1
      · have hpe : p = (h.instrument, h) := by simpa using hp1
        subst hpe
        exact fun heq => hnd'.1 g hg heq.symm

/-- Under the at-most-one-holding-per-instrument invariant, the instrument map
of a snapshot is just the association of each holding to its instrument. -/
theorem toDict_eq_map (hs : List SnapshotHolding)
    (hnd : (hs.map SnapshotHolding.instrument).Nodup) :
    toDict hs = hs.map (fun h => (h.instrument, h)) := by
  simpa using toDict_eq_map_aux hs [] hnd (by simp)

theorem mem_foldl_dictInsert (hs : List SnapshotHolding) :
    ∀ (acc : List (String × SnapshotHolding)) (p : String × SnapshotHolding),
    p ∈ hs.foldl (fun m h => dictInsert m h.instrument h) acc →
    p ∈ acc ∨ (p.2 ∈ hs ∧ p.1 = p.2.instrument) := by
  induction hs with
  | nil =>
    intro acc p hp
    left
    simpa using hp
  | cons h t ih =>
    intro acc p hp
    rw [List.foldl_cons] at hp
    rcases ih _ p hp with h1 | h1
    · rcases mem_dictInsert _ _ _ _ h1 with h2 | h2
      · right
        subst h2
        exact ⟨List.mem_cons_self _ _, rfl⟩
      · left
        exact h2
    · right
      exact ⟨List.mem_cons_of_mem _ h1.1, h1.2⟩

/-- Every value in a snapshot's instrument map is one of its holdings, keyed by
its instrument. -/
theorem dictGet_toDict_some (hs : List SnapshotHolding) (i : String)
    (h : SnapshotHolding) (hg : dictGet (toDict hs) i = some h) :
    h ∈ hs ∧ h.instrument = i := by
  have hmem := dictGet_eq_some_mem _ _ _ hg
  have h2 := mem_foldl_dictInsert hs [] (i, h) (by simpa [toDict] using hmem)
  rcases h2 with h3 | h3
  · simp at h3
  · exact ⟨h3.1, h3.2.symm⟩

/-! ## Transaction sign invariants (claim C4) -/

/-- The property claimed of every inferred transaction: positive quantity,
cash-out (negative amount) for a BUY, cash-in (positive amount) for a SELL. -/
def TxnSigned (t : Transaction) : Prop :=
  0 < t.quantity ∧ (t.type = TxnType.BUY → t.amount < 0) ∧
    (t.type = TxnType.SELL → 0 < t.amount)

instance (t : Transaction) : Decidable (TxnSigned t) := by
  unfold TxnSigned
  infer_instance

/-- The property assumed of a holding in the amended claim C4: strictly
positive quantity, average cost, and last traded price. -/
def HoldingPos (h : SnapshotHolding) : Prop :=
  0 < h.quantity ∧ 0 < h.avg_cost ∧ 0 < h.ltp

instance (h : SnapshotHolding) : Decidable (HoldingPos h) := by
  unfold HoldingPos
  infer_instance

theorem inferForCurrEntry_signed (pm : List (String × SnapshotHolding))
    (prevHoldings : List SnapshotHolding) (d : ℕ) (e : String × SnapshotHolding)
    (hpm : ∀ g ∈ prevHoldings, HoldingPos g)
    (hpm' : ∀ v, dictGet pm e.1 = some v → v ∈ prevHoldings)
    (he : HoldingPos e.2) :
    ∀ t ∈ inferForCurrEntry pm d e, TxnSigned t := by
  intro t ht
  simp only [inferForCurrEntry] at ht
  cases hg : dictGet pm e.1 with
  | none =>
    simp only [hg, List.mem_singleton] at ht
    subst ht
    have hq : (0 : ℚ) < (e.2.quantity : ℚ) := by exact_mod_cast he.1
    refine ⟨he.1, fun _ => ?_, fun hst => by simp at hst⟩
    simp only
    have := mul_pos he.2.1 hq
    linarith
  | some prev_h =>
    simp only [hg] at ht
    have hpp : HoldingPos prev_h := hpm prev_h (hpm' prev_h hg)
    by_cases hlt : prev_h.quantity < e.2.quantity
    · rw [if_pos hlt] at ht
      simp only [List.mem_singleton] at ht
      subst ht
      refine ⟨by simpa using hlt, fun _ => ?_, fun hst => by simp at hst⟩
      simp only
      have hd : (0 : ℚ) < ((e.2.quantity - prev_h.quantity : ℤ) : ℚ) := by
        exact_mod_cast sub_pos.mpr hlt
      set raw : ℚ := (e.2.avg_cost * (e.2.quantity : ℚ) -
        prev_h.avg_cost * (prev_h.quantity : ℚ)) / ((e.2.quantity - prev_h.quantity : ℤ) : ℚ)
      by_cases hraw : raw ≤ 0
      · rw [if_pos hraw]
        have := mul_pos he.2.1 hd
        linarith
      · rw [if_neg hraw]
        push_neg at hraw
        have := mul_pos hraw hd
        linarith
    · rw [if_neg hlt] at ht
      by_cases hgt : e.2.quantity < prev_h.quantity
      · rw [if_pos hgt] at ht
        simp only [List.mem_singleton] at ht
        subst ht
        refine ⟨by simpa using hgt, fun hst => by simp at hst, fun _ => ?_⟩
        simp only
        have hd : (0 : ℚ) < ((prev_h.quantity - e.2.quantity : ℤ) : ℚ) := by
          exact_mod_cast sub_pos.mpr hgt
        exact mul_pos hpp.2.2 hd
      · rw [if_neg hgt] at ht
        simp at ht

theorem inferBetween_signed (prev curr : Snapshot)
    (hp : ∀ h ∈ prev.holdings, HoldingPos h)
    (hc : ∀ h ∈ curr.holdings, HoldingPos h) :
    ∀ t ∈ inferBetweenSnapshots prev curr, TxnSigned t := by
  intro t ht
  unfold inferBetweenSnapshots at ht
  rcases List.mem_append.mp ht with h1 | h1
  · rcases List.mem_flatten.mp h1 with ⟨l, hl, htl⟩
    rcases List.mem_map.mp hl with ⟨e, he, rfl⟩
    have he2 : e.2 ∈ curr.holdings := by
      rcases mem_foldl_dictInsert curr.holdings [] e (by simpa [toDict] using he) with h2 | h2
      · simp at h2
      · exact h2.1
    exact inferForCurrEntry_signed (toDict prev.holdings) prev.holdings curr.date e hp
      (fun v hv => (dictGet_toDict_some prev.holdings e.1 v hv).1) (hc e.2 he2) t htl
  · rcases List.mem_map.mp h1 with ⟨p, hpf, rfl⟩
    have hp2 : p.2 ∈ prev.holdings := by
      have hpm : p ∈ toDict prev.holdings := (List.mem_filter.mp hpf).1
      rcases mem_foldl_dictInsert prev.holdings [] p (by simpa [toDict] using hpm) with h2 | h2
      · simp at h2
      · exact h2.1
    have hpp := hp p.2 hp2
    have hq : (0 : ℚ) < (p.2.quantity : ℚ) := by exact_mod_cast hpp.1
    exact ⟨hpp.1, fun hst => by simp at hst, fun _ => mul_pos hpp.2.2 hq⟩

theorem inferPairs_signed (rest : List Snapshot) :
    ∀ prev : Snapshot, (∀ h ∈ prev.holdings, HoldingPos h) →
    (∀ s ∈ rest, ∀ h ∈ s.holdings, HoldingPos h) →
    ∀ t ∈ inferPairs prev rest, TxnSigned t := by
  induction rest with
  | nil =>
    intro prev _ _ t ht
    simp [inferPairs] at ht
  | cons curr rest ih =>
    intro prev hp hr t ht
    simp only [inferPairs] at ht
    rcases List.mem_append.mp ht with h1 | h1
    · exact inferBetween_signed prev curr hp (hr curr (by simp)) t h1
    · exact ih curr (hr curr (by simp)) (fun s hs => hr s (List.mem_cons_of_mem _ hs)) t h1

/-- C4 (counterexample): the claim as stated is false.  The snapshot list
consisting of a single snapshot with one holding of quantity 0 (and
`avg_cost = ltp = 0`) satisfies the claim's hypotheses (`quantity ≥ 0`,
`avg_cost ≥ 0`, `ltp ≥ 0`), yet `infer_transactions` emits a baseline BUY
transaction with quantity 0 and amount 0, which is neither of positive
quantity nor of negative amount. -/
theorem c4_counterexample :
    (∀ s ∈ [Snapshot.mk 0 [⟨0, "A", 0, 0, 0, 0, "NSE"⟩]],
        ∀ h ∈ s.holdings, 0 ≤ h.quantity ∧ 0 ≤ h.avg_cost ∧ 0 ≤ h.ltp) ∧
    ¬ (∀ t ∈ infer_transactions [Snapshot.mk 0 [⟨0, "A", 0, 0, 0, 0, "NSE"⟩]],
        0 < t.quantity ∧ (t.type = TxnType.BUY → t.amount < 0) ∧
        (t.type = TxnType.SELL → 0 < t.amount)) := by
  decide

/-- C4 (amended): for every list of snapshots whose holdings all have strictly
positive quantity, average cost, and LTP, every transaction returned by
`infer_transactions` has positive quantity, negative amount if a BUY and
positive amount if a SELL. -/
theorem c4_transaction_signs (snaps : List Snapshot)
    (hpos : ∀ s ∈ snaps, ∀ h ∈ s.holdings, HoldingPos h) :
    ∀ t ∈ infer_transactions snaps, TxnSigned t := by
  cases snaps with
  | nil =>
    intro t ht
    simp [infer_transactions] at ht
  | cons s0 rest =>
    intro t ht
    simp only [infer_transactions] at ht
    rcases List.mem_append.mp ht with h1 | h1
    · rcases List.mem_map.mp h1 with ⟨h, hh, rfl⟩
      have hhp := hpos s0 (by simp) h hh
      have hq : (0 : ℚ) < (h.quantity : ℚ) := by exact_mod_cast hhp.1
      refine ⟨hhp.1, fun _ => ?_, fun hst => by simp at hst⟩
      simp only
      have := mul_pos hhp.2.1 hq
      linarith
    · exact inferPairs_signed rest s0 (hpos s0 (by simp))
        (fun s hs => hpos s (List.mem_cons_of_mem _ hs)) t h1

/-- Witness for `c4_transaction_signs` at a concrete two-snapshot input. -/
theorem c4_transaction_signs_witness :
    (∀ s ∈ [Snapshot.mk 15 [⟨15, "R", 10, 100, 110, 1100, "NSE"⟩],
            Snapshot.mk 20 [⟨20, "R", 4, 100, 120, 480, "NSE"⟩]],
      ∀ h ∈ s.holdings, HoldingPos h) ∧
    (∀ t ∈ infer_transactions
        [Snapshot.mk 15 [⟨15, "R", 10, 100, 110, 1100, "NSE"⟩],
         Snapshot.mk 20 [⟨20, "R", 4, 100, 120, 480, "NSE"⟩]], TxnSigned t) :=
  ⟨by decide, c4_transaction_signs _ (by decide)⟩

/-! ## Per-instrument characterization of the inferred diff (claims C2, C3) -/

theorem inferForCurrEntry_instrument (pm : List (String × SnapshotHolding))
    (d : ℕ) (e : String × SnapshotHolding) :
    ∀ t ∈ inferForCurrEntry pm d e, t.instrument = e.1 := by
  intro t ht
  simp only [inferForCurrEntry] at ht
  cases hg : dictGet pm e.1 with
  | none =>
    simp only [hg, List.mem_singleton] at ht
    subst ht
    rfl
  | some prev_h =>
    simp only [hg] at ht
    by_cases hlt : prev_h.quantity < e.2.quantity
    · rw [if_pos hlt] at ht
      simp only [List.mem_singleton] at ht
      subst ht
      rfl
    · rw [if_neg hlt] at ht
      by_cases hgt : e.2.quantity < prev_h.quantity
      · rw [if_pos hgt] at ht
        simp only [List.mem_singleton] at ht
        subst ht
        rfl
      · rw [if_neg hgt] at ht
        simp at ht

theorem dictGet_toDict (hs : List SnapshotHolding) (i : String)
    (hnd : (hs.map SnapshotHolding.instrument).Nodup) :
    dictGet (toDict hs) i = hs.find? (fun h => h.instrument == i) := by
  rw [toDict_eq_map hs hnd]
  unfold dictGet
  rw [List.find?_map, Option.map_map]
  have h2 : ((fun (p : String × SnapshotHolding) => p.1 == i) ∘
      (fun h => (h.instrument, h))) = fun h => h.instrument == i := rfl
  rw [h2]
  cases hs.find? (fun h => h.instrument == i) <;> rfl

/-- With unique instruments, filtering a holding list for one instrument keeps
exactly the holding `find?` returns (or nothing). -/
theorem filter_holdings_eq_find? (hs : List SnapshotHolding) (i : String)
    (hnd : (hs.map SnapshotHolding.instrument).Nodup) :
    hs.filter (fun h => h.instrument == i)
      = (hs.find? (fun h => h.instrument == i)).elim [] (fun h => [h]) := by
  induction hs with
  | nil => rfl
  | cons h t ih =>
    have hnd' : (∀ x ∈ t, ¬ x.instrument = h.instrument) ∧
        (t.map SnapshotHolding.instrument).Nodup := by
      simpa using hnd
    cases hh : (h.instrument == i) with
    | true =>
      have hi : h.instrument = i := by simpa using hh
      have ht0 : t.filter (fun g => g.instrument == i) = [] := by
        rw [List.filter_eq_nil_iff]
        intro g hg hgi
        have : g.instrument = i := by simpa using hgi
        exact hnd'.1 g hg (this.trans hi.symm)
      simp [List.filter_cons, List.find?_cons, hh, ht0]
    | false =>
      simp [List.filter_cons, List.find?_cons, hh, ih hnd'.2]

/-- Filtering the first loop's output (over the `curr` instrument map) for one
instrument keeps exactly the entry of that instrument, if any. -/
theorem filter_flatten_infer (pm : List (String × SnapshotHolding)) (d : ℕ)
    (i : String) (hs : List SnapshotHolding)
    (hnd : (hs.map SnapshotHolding.instrument).Nodup) :
    (((hs.map (fun h => (h.instrument, h))).map (inferForCurrEntry pm d)).flatten).filter
        (fun t => t.instrument == i)
      = (hs.find? (fun h => h.instrument == i)).elim []
          (fun h => inferForCurrEntry pm d (h.instrument, h)) := by
  induction hs with
  | nil => rfl
  | cons h t ih =>
    have hnd' : (∀ x ∈ t, ¬ x.instrument = h.instrument) ∧
        (t.map SnapshotHolding.instrument).Nodup := by
      simpa using hnd
    simp only [List.map_cons, List.flatten_cons, List.filter_append]
    cases hh : (h.instrument == i) with
    | true =>
      have hi : h.instrument = i := by simpa using hh
      have hkeep : (inferForCurrEntry pm d (h.instrument, h)).filter
          (fun t => t.instrument == i) = inferForCurrEntry pm d (h.instrument, h) := by
        rw [List.filter_eq_self]
        intro t ht
        have := inferForCurrEntry_instrument pm d _ t ht
        simp [this, hi]
      have hrest : (((t.map (fun g => (g.instrument, g))).map
          (inferForCurrEntry pm d)).flatten).filter (fun t => t.instrument == i) = [] := by
        rw [List.filter_eq_nil_iff]
        intro x hx hxi
        rcases List.mem_flatten.mp hx with ⟨l, hl, hxl⟩
        rcases List.mem_map.mp hl with ⟨e, he, rfl⟩
        rcases List.mem_map.mp he with ⟨g, hg, rfl⟩
        have hxg := inferForCurrEntry_instrument pm d _ x hxl
        have : x.instrument = i := by simpa using hxi
        exact hnd'.1 g hg ((hxg.symm.trans this).trans hi.symm)
      rw [hkeep, hrest, List.find?_cons, hh]
      simp
    | false =>
      have hskip : (inferForCurrEntry pm d (h.instrument, h)).filter
          (fun t => t.instrument == i) = [] := by
        rw [List.filter_eq_nil_iff]
        intro x hx hxi
        have hxg := inferForCurrEntry_instrument pm d _ x hx
        have hxi' : x.instrument = i := by simpa using hxi
        rw [hxg] at hxi'
        have h2 : h.instrument = i := hxi'
        simp [h2] at hh
      rw [hskip, List.find?_cons, hh, ih hnd'.2]
      simp

/-- Filtering the inferred diff of two snapshots for one instrument: if the
instrument is in `curr`, exactly the first loop's transactions for it remain
(the disappeared-instrument loop never fires for it); if it is only in `prev`,
exactly the full-liquidation SELL remains; otherwise nothing remains. -/
theorem filter_inferBetween (prev curr : Snapshot) (i : String)
    (hndp : (prev.holdings.map SnapshotHolding.instrument).Nodup)
    (hndc : (curr.holdings.map SnapshotHolding.instrument).Nodup) :
    (inferBetweenSnapshots prev curr).filter (fun t => t.instrument == i)
      = match curr.holdings.find? (fun h => h.instrument == i) with
        | some curr_h => inferForCurrEntry (toDict prev.holdings) curr.date
            (curr_h.instrument, curr_h)
        | none =>
            match prev.holdings.find? (fun h => h.instrument == i) with
            | some prev_h => [⟨curr.date, prev_h.instrument, TxnType.SELL,
                prev_h.quantity, prev_h.ltp, prev_h.ltp * (prev_h.quantity : ℚ)⟩]
            | none => [] := by
  simp only [inferBetweenSnapshots]
  rw [toDict_eq_map curr.holdings hndc, toDict_eq_map prev.holdings hndp,
    List.filter_append]
  have hA := filter_flatten_infer (prev.holdings.map (fun h => (h.instrument, h)))
    curr.date i curr.holdings hndc
  rw [hA]
  have hB :
      (((prev.holdings.map (fun h => (h.instrument, h))).filter
          (fun p => (dictGet (curr.holdings.map (fun h => (h.instrument, h))) p.1).isNone)).map
        (fun p => (⟨curr.date, p.1, TxnType.SELL, p.2.quantity, p.2.ltp,
          p.2.ltp * (p.2.quantity : ℚ)⟩ : Transaction))).filter
          (fun t => t.instrument == i)
      = ((prev.holdings.filter (fun h => (h.instrument == i) &&
          (dictGet (curr.holdings.map (fun g => (g.instrument, g))) h.instrument).isNone)).map
        (fun h => (⟨curr.date, h.instrument, TxnType.SELL, h.quantity, h.ltp,
          h.ltp * (h.quantity : ℚ)⟩ : Transaction))) := by
    rw [List.filter_map, List.filter_filter, List.filter_map, List.map_map]
    rfl
  rw [hB]
  have hget : dictGet (curr.holdings.map (fun g => (g.instrument, g))) i
      = curr.holdings.find? (fun h => h.instrument == i) := by
    rw [← toDict_eq_map curr.holdings hndc]
    exact dictGet_toDict curr.holdings i hndc
  cases hc : curr.holdings.find? (fun h => h.instrument == i) with
  | some curr_h =>
    have hci : curr_h.instrument = i := by simpa using List.find?_some hc
    have hBnil : prev.holdings.filter (fun h => (h.instrument == i) &&
        (dictGet (curr.holdings.map (fun g => (g.instrument, g))) h.instrument).isNone) = [] := by
      rw [List.filter_eq_nil_iff]
      intro h hmem hb
      simp only [Bool.and_eq_true] at hb
      obtain ⟨hb1, hb2⟩ := hb
      have hieq : h.instrument = i := by simpa using hb1
      rw [hieq, hget, hc] at hb2
      simp at hb2
    rw [hBnil]
    simp [hci]
  | none =>
    have hBfull : prev.holdings.filter (fun h => (h.instrument == i) &&
        (dictGet (curr.holdings.map (fun g => (g.instrument, g))) h.instrument).isNone)
        = prev.holdings.filter (fun h => h.instrument == i) := by
      apply List.filter_congr
      intro h hmem
      cases hhi : (h.instrument == i) with
      | true =>
        have hieq : h.instrument = i := by simpa using hhi
        rw [hieq, hget, hc]
        simp
      | false => simp
    rw [hBfull, filter_holdings_eq_find? prev.holdings i hndp]
    cases hp : prev.holdings.find? (fun h => h.instrument == i) with
    | some prev_h => simp [hA]
    | none => simp [hA]

/-- C2: for consecutive snapshots (satisfying the one-holding-per-instrument
invariant) and an instrument present in both whose quantity increased, the
inferrer emits exactly one transaction for that instrument: a BUY of the
quantity difference, priced by back-solving the weighted-average-cost identity
`(curr.avg_cost·curr.qty − prev.avg_cost·prev.qty)/Δqty`, falling back to
`curr.avg_cost` when that value is ≤ 0. -/
theorem c2_buy_backsolve (prev curr : Snapshot) (i : String)
    (prev_h curr_h : SnapshotHolding)
    (hndp : (prev.holdings.map SnapshotHolding.instrument).Nodup)
    (hndc : (curr.holdings.map SnapshotHolding.instrument).Nodup)
    (hfp : prev.holdings.find? (fun h => h.instrument == i) = some prev_h)
    (hfc : curr.holdings.find? (fun h => h.instrument == i) = some curr_h)
    (hq : prev_h.quantity < curr_h.quantity) :
    (inferBetweenSnapshots prev curr).filter (fun t => t.instrument == i)
      = (let qty_diff : ℤ := curr_h.quantity - prev_h.quantity
         let raw : ℚ := (curr_h.avg_cost * (curr_h.quantity : ℚ)
           - prev_h.avg_cost * (prev_h.quantity : ℚ)) / (qty_diff : ℚ)
         let price : ℚ := if raw ≤ 0 then curr_h.avg_cost else raw
         [⟨curr.date, i, TxnType.BUY, qty_diff, price,
           -(price * (qty_diff : ℚ))⟩]) := by
  have hci : curr_h.instrument = i := by simpa using List.find?_some hfc
  rw [filter_inferBetween prev curr i hndp hndc]
  simp only [hfc, hci]
  simp only [inferForCurrEntry]
  rw [dictGet_toDict prev.holdings i hndp]
  simp only [hfp]
  rw [if_pos hq]

/-- Witness for `c2_buy_backsolve`: the spec's example.  Snapshot day 15
(RELIANCE, qty 10, avg_cost 2450.5) followed by day 20 (qty 15, avg_cost
2460.0) yields exactly one BUY dated day 20 of quantity 5 at price
`(2460·15 − 2450.5·10)/5 = 2479`. -/
theorem c2_buy_backsolve_witness :
    (inferBetweenSnapshots
        (Snapshot.mk 15 [⟨15, "RELIANCE", 10, 4901/2, 2455, 24505, "NSE"⟩])
        (Snapshot.mk 20 [⟨20, "RELIANCE", 15, 2460, 2465, 36900, "NSE"⟩])).filter
        (fun t => t.instrument == "RELIANCE")
      = [⟨20, "RELIANCE", TxnType.BUY, 5, 2479, -12395⟩] := by
  rw [c2_buy_backsolve
    (Snapshot.mk 15 [⟨15, "RELIANCE", 10, 4901/2, 2455, 24505, "NSE"⟩])
    (Snapshot.mk 20 [⟨20, "RELIANCE", 15, 2460, 2465, 36900, "NSE"⟩])
    "RELIANCE" ⟨15, "RELIANCE", 10, 4901/2, 2455, 24505, "NSE"⟩
    ⟨20, "RELIANCE", 15, 2460, 2465, 36900, "NSE"⟩
    (by decide) (by decide) (by rfl) (by rfl) (by decide)]
  norm_num

/-- C3: the three SELL/no-op diffing rules.  For consecutive snapshots
satisfying the one-holding-per-instrument invariant: a quantity decrease emits
exactly one SELL of the difference priced at the previous snapshot's LTP; an
instrument present only in `prev` emits exactly one SELL of the full previous
quantity at the previous snapshot's LTP; an unchanged quantity emits no
transaction at all (whatever happened to `avg_cost` or `ltp`). -/
theorem c3_sell_rules :
    (∀ (prev curr : Snapshot) (i : String) (prev_h curr_h : SnapshotHolding),
      (prev.holdings.map SnapshotHolding.instrument).Nodup →
      (curr.holdings.map SnapshotHolding.instrument).Nodup →
      prev.holdings.find? (fun h => h.instrument == i) = some prev_h →
      curr.holdings.find? (fun h => h.instrument == i) = some curr_h →
      curr_h.quantity < prev_h.quantity →
      (inferBetweenSnapshots prev curr).filter (fun t => t.instrument == i)
        = [⟨curr.date, i, TxnType.SELL, prev_h.quantity - curr_h.quantity,
            prev_h.ltp, prev_h.ltp * ((prev_h.quantity - curr_h.quantity : ℤ) : ℚ)⟩]) ∧
    (∀ (prev curr : Snapshot) (i : String) (prev_h : SnapshotHolding),
      (prev.holdings.map SnapshotHolding.instrument).Nodup →
      (curr.holdings.map SnapshotHolding.instrument).Nodup →
      prev.holdings.find? (fun h => h.instrument == i) = some prev_h →
      curr.holdings.find? (fun h => h.instrument == i) = none →
      (inferBetweenSnapshots prev curr).filter (fun t => t.instrument == i)
        = [⟨curr.date, i, TxnType.SELL, prev_h.quantity, prev_h.ltp,
            prev_h.ltp * (prev_h.quantity : ℚ)⟩]) ∧
    (∀ (prev curr : Snapshot) (i : String) (prev_h curr_h : SnapshotHolding),
      (prev.holdings.map SnapshotHolding.instrument).Nodup →
      (curr.holdings.map SnapshotHolding.instrument).Nodup →
      prev.holdings.find? (fun h => h.instrument == i) = some prev_h →
      curr.holdings.find? (fun h => h.instrument == i) = some curr_h →
      curr_h.quantity = prev_h.quantity →
      (inferBetweenSnapshots prev curr).filter (fun t => t.instrument == i) = []) := by
  refine ⟨?_, ?_, ?_⟩
  · intro prev curr i prev_h curr_h hndp hndc hfp hfc hq
    have hci : curr_h.instrument = i := by simpa using List.find?_some hfc
    rw [filter_inferBetween prev curr i hndp hndc]
    simp only [hfc, hci]
    simp only [inferForCurrEntry]
    rw [dictGet_toDict prev.holdings i hndp]
    simp only [hfp]
    rw [if_neg (by omega), if_pos hq]
  · intro prev curr i prev_h hndp hndc hfp hfc
    have hpi : prev_h.instrument = i := by simpa using List.find?_some hfp
    rw [filter_inferBetween prev curr i hndp hndc]
    simp only [hfc, hfp, hpi]
  · intro prev curr i prev_h curr_h hndp hndc hfp hfc hq
    have hci : curr_h.instrument = i := by simpa using List.find?_some hfc
    rw [filter_inferBetween prev curr i hndp hndc]
    simp only [hfc, hci]
    simp only [inferForCurrEntry]
    rw [dictGet_toDict prev.holdings i hndp]
    simp only [hfp]
    rw [if_neg (by omega), if_neg (by omega)]

/-- Witness for `c3_sell_rules`: a decrease (10 → 4) sells 6 at the previous
LTP, a disappearance sells all 7 at the previous LTP, and an unchanged
quantity with changed `avg_cost` and `ltp` emits nothing. -/
theorem c3_sell_rules_witness :
    ((inferBetweenSnapshots
        (Snapshot.mk 15 [⟨15, "A", 10, 100, 111, 1110, "NSE"⟩])
        (Snapshot.mk 16 [⟨16, "A", 4, 100, 115, 460, "NSE"⟩])).filter
        (fun t => t.instrument == "A")
      = [⟨16, "A", TxnType.SELL, 6, 111, 666⟩]) ∧
    ((inferBetweenSnapshots
        (Snapshot.mk 15 [⟨15, "B", 7, 50, 60, 420, "NSE"⟩])
        (Snapshot.mk 16 [])).filter (fun t => t.instrument == "B")
      = [⟨16, "B", TxnType.SELL, 7, 60, 420⟩]) ∧
    ((inferBetweenSnapshots
        (Snapshot.mk 15 [⟨15, "C", 5, 80, 90, 450, "NSE"⟩])
        (Snapshot.mk 16 [⟨16, "C", 5, 81, 95, 475, "NSE"⟩])).filter
        (fun t => t.instrument == "C") = []) := by
  refine ⟨?_, ?_, ?_⟩
  · rw [c3_sell_rules.1
      (Snapshot.mk 15 [⟨15, "A", 10, 100, 111, 1110, "NSE"⟩])
      (Snapshot.mk 16 [⟨16, "A", 4, 100, 115, 460, "NSE"⟩]) "A"
      ⟨15, "A", 10, 100, 111, 1110, "NSE"⟩ ⟨16, "A", 4, 100, 115, 460, "NSE"⟩
      (by decide) (by decide) (by rfl) (by rfl) (by decide)]
    norm_num
  · rw [c3_sell_rules.2.1
      (Snapshot.mk 15 [⟨15, "B", 7, 50, 60, 420, "NSE"⟩])
      (Snapshot.mk 16 []) "B" ⟨15, "B", 7, 50, 60, 420, "NSE"⟩
      (by decide) (by decide) (by rfl) (by rfl)]
    norm_num
  · exact c3_sell_rules.2.2
      (Snapshot.mk 15 [⟨15, "C", 5, 80, 90, 450, "NSE"⟩])
      (Snapshot.mk 16 [⟨16, "C", 5, 81, 95, 475, "NSE"⟩]) "C"
      ⟨15, "C", 5, 80, 90, 450, "NSE"⟩ ⟨16, "C", 5, 81, 95, 475, "NSE"⟩
      (by decide) (by decide) (by rfl) (by rfl) (by rfl)

/-! ## Replay of inferred transactions (claim C1) -/

theorem replayStep_shift (i : String) (q : ℤ) (t : Transaction) :
    replayStep i q t = q + replayStep i 0 t := by
  unfold replayStep
  cases hi : (t.instrument == i) with
  | true => cases t.type <;> simp <;> ring
  | false => simp

theorem foldl_replayStep_shift (ts : List Transaction) (i : String) :
    ∀ q : ℤ, ts.foldl (replayStep i) q = q + ts.foldl (replayStep i) 0 := by
  induction ts with
  | nil => intro q; simp
  | cons t ts ih =>
    intro q
    rw [List.foldl_cons, ih (replayStep i q t), List.foldl_cons,
      ih (replayStep i 0 t), replayStep_shift]
    ring

theorem replayQty_nil (i : String) : replayQty [] i = 0 := rfl

theorem replayQty_singleton (t : Transaction) (i : String) :
    replayQty [t] i = replayStep i 0 t := by
  simp [replayQty]

theorem replayQty_cons (t : Transaction) (ts : List Transaction) (i : String) :
    replayQty (t :: ts) i = replayStep i 0 t + replayQty ts i := by
  unfold replayQty
  rw [List.foldl_cons, foldl_replayStep_shift, replayStep_shift]

theorem replayQty_append (xs ys : List Transaction) (i : String) :
    replayQty (xs ++ ys) i = replayQty xs i + replayQty ys i := by
  unfold replayQty
  rw [List.foldl_append, foldl_replayStep_shift]

theorem replayQty_inferForCurrEntry (pm : List (String × SnapshotHolding))
    (d : ℕ) (e : String × SnapshotHolding) (i : String) :
    replayQty (inferForCurrEntry pm d e) i
      = if e.1 == i then
          e.2.quantity - (dictGet pm i).elim 0 SnapshotHolding.quantity
        else 0 := by
  cases hei : (e.1 == i) with
  | false =>
    rw [if_neg (by simp [hei])]
    cases hg : dictGet pm e.1 with
    | none => simp [inferForCurrEntry, hg, replayQty_singleton, replayStep, hei]
    | some prev_h =>
      simp only [inferForCurrEntry, hg]
      by_cases hlt : prev_h.quantity < e.2.quantity
      · rw [if_pos hlt, replayQty_singleton]
        simp [replayStep, hei]
      · rw [if_neg hlt]
        by_cases hgt : e.2.quantity < prev_h.quantity
        · rw [if_pos hgt, replayQty_singleton]
          simp [replayStep, hei]
        · rw [if_neg hgt]
          rfl
  | true =>
    rw [if_pos rfl]
    have hei' : e.1 = i := by simpa using hei
    subst hei'
    cases hg : dictGet pm e.1 with
    | none => simp [inferForCurrEntry, hg, replayQty_singleton, replayStep]
    | some prev_h =>
      simp only [inferForCurrEntry, hg]
      by_cases hlt : prev_h.quantity < e.2.quantity
      · rw [if_pos hlt, replayQty_singleton]
        simp [replayStep]
      · rw [if_neg hlt]
        by_cases hgt : e.2.quantity < prev_h.quantity
        · rw [if_pos hgt, replayQty_singleton]
          simp [replayStep]
        · rw [if_neg hgt, replayQty_nil]
          simp only [Option.elim_some]
          omega

theorem dictGet_cons {κ α : Type} [BEq κ] (p : κ × α) (m : List (κ × α)) (k : κ) :
    dictGet (p :: m) k = if p.1 == k then some p.2 else dictGet m k := by
  unfold dictGet
  rw [List.find?_cons]
  cases hp : (p.1 == k) <;> simp [hp]

theorem any_key_map_mk (hs : List SnapshotHolding) (i : String) :
    (hs.map (fun h => (h.instrument, h))).any (fun p => p.1 == i)
      = (hs.find? (fun h => h.instrument == i)).isSome := by
  induction hs with
  | nil => rfl
  | cons h t ih =>
    cases hh : (h.instrument == i) <;>
      simp [List.any_cons, List.find?_cons, hh, ih]

theorem snapQty_eq (s : Snapshot) (i : String) :
    snapQty s i
      = (s.holdings.find? (fun h => h.instrument == i)).elim 0
          SnapshotHolding.quantity := by
  unfold snapQty
  cases s.holdings.find? (fun h => h.instrument == i) <;> rfl

theorem replayQty_flatten_infer (pm : List (String × SnapshotHolding)) (d : ℕ)
    (i : String) :
    ∀ entries : List (String × SnapshotHolding), (entries.map Prod.fst).Nodup →
    replayQty ((entries.map (inferForCurrEntry pm d)).flatten) i
      = if entries.any (fun p => p.1 == i) then
          (dictGet entries i).elim 0 SnapshotHolding.quantity
            - (dictGet pm i).elim 0 SnapshotHolding.quantity
        else 0 := by
  intro entries
  induction entries with
  | nil =>
    intro _
    simp [replayQty_nil]
  | cons e rest ih =>
    intro hnd
    have hnd' : e.1 ∉ rest.map Prod.fst ∧ (rest.map Prod.fst).Nodup :=
      List.nodup_cons.mp hnd
    simp only [List.map_cons, List.flatten_cons]
    rw [replayQty_append, replayQty_inferForCurrEntry]
    cases hei : (e.1 == i) with
    | true =>
      have hei' : e.1 = i := by simpa using hei
      have hanyrest : rest.any (fun p => p.1 == i) = false := by
        rw [any_key_false_iff]
        intro p hp hpi
        apply hnd'.1
        rw [hei', ← hpi]
        exact List.mem_map.mpr ⟨p, hp, rfl⟩
      rw [if_pos rfl, ih hnd'.2, hanyrest]
      simp [List.any_cons, hei, dictGet_cons]
    | false =>
      rw [if_neg (by simp), ih hnd'.2, List.any_cons, dictGet_cons, hei,
        Bool.false_or]
      simp

theorem replayQty_disappeared (curr_map : List (String × SnapshotHolding))
    (d : ℕ) (i : String) :
    ∀ prev_map : List (String × SnapshotHolding), (prev_map.map Prod.fst).Nodup →
    replayQty ((prev_map.filter (fun p => (dictGet curr_map p.1).isNone)).map
        (fun p => (⟨d, p.1, TxnType.SELL, p.2.quantity, p.2.ltp,
          p.2.ltp * (p.2.quantity : ℚ)⟩ : Transaction))) i
      = if (dictGet curr_map i).isNone && prev_map.any (fun p => p.1 == i) then
          -((dictGet prev_map i).elim 0 SnapshotHolding.quantity)
        else 0 := by
  intro prev_map
  induction prev_map with
  | nil =>
    intro _
    simp [replayQty_nil]
  | cons p rest ih =>
    intro hnd
    have hnd' : p.1 ∉ rest.map Prod.fst ∧ (rest.map Prod.fst).Nodup :=
      List.nodup_cons.mp hnd
    rw [List.filter_cons]
    cases hpi : (p.1 == i) with
    | true =>
      have hpi' : p.1 = i := by simpa using hpi
      have hanyrest : rest.any (fun q => q.1 == i) = false := by
        rw [any_key_false_iff]
        intro q hq hqi
        apply hnd'.1
        rw [hpi', ← hqi]
        exact List.mem_map.mpr ⟨q, hq, rfl⟩
      have hrest : replayQty ((rest.filter
          (fun q => (dictGet curr_map q.1).isNone)).map
          (fun q => (⟨d, q.1, TxnType.SELL, q.2.quantity, q.2.ltp,
            q.2.ltp * (q.2.quantity : ℚ)⟩ : Transaction))) i = 0 := by
        rw [ih hnd'.2, hanyrest]
        simp
      cases hc : (dictGet curr_map p.1).isNone with
      | true =>
        have hci : (dictGet curr_map i).isNone = true := by
          rw [← hpi']
          exact hc
        rw [if_pos rfl, List.map_cons, replayQty_cons, hrest]
        simp [replayStep, hpi, List.any_cons, dictGet_cons, hci]
      | false =>
        have hci : (dictGet curr_map i).isNone = false := by
          rw [← hpi']
          exact hc
        rw [if_neg (by simp), hrest]
        simp [hci]
    | false =>
      have hstep : ∀ q : ℤ, replayStep i q
          (⟨d, p.1, TxnType.SELL, p.2.quantity, p.2.ltp,
            p.2.ltp * (p.2.quantity : ℚ)⟩ : Transaction) = q := by
        intro q
        simp [replayStep, hpi]
      cases hc : (dictGet curr_map p.1).isNone with
      | true =>
        rw [if_pos rfl, List.map_cons, replayQty_cons, hstep, ih hnd'.2,
          List.any_cons, dictGet_cons, hpi, Bool.false_or]
        simp
      | false =>
        rw [if_neg (by simp), ih hnd'.2, List.any_cons, dictGet_cons, hpi,
          Bool.false_or]
        simp

/-- The net effect, on any one instrument, of the transactions inferred between
two consecutive snapshots is exactly the change of that instrument's recorded
quantity. -/
theorem replayQty_inferBetween (prev curr : Snapshot) (i : String)
    (hndp : (prev.holdings.map SnapshotHolding.instrument).Nodup)
    (hndc : (curr.holdings.map SnapshotHolding.instrument).Nodup) :
    replayQty (inferBetweenSnapshots prev curr) i
      = snapQty curr i - snapQty prev i := by
  simp only [inferBetweenSnapshots]
  rw [replayQty_append]
  rw [toDict_eq_map prev.holdings hndp, toDict_eq_map curr.holdings hndc]
  have hkc : ((curr.holdings.map (fun h => (h.instrument, h))).map Prod.fst).Nodup := by
    rw [List.map_map]
    exact hndc
  have hkp : ((prev.holdings.map (fun h => (h.instrument, h))).map Prod.fst).Nodup := by
    rw [List.map_map]
    exact hndp
  rw [replayQty_flatten_infer _ curr.date i _ hkc,
    replayQty_disappeared _ curr.date i _ hkp]
  have hgc : dictGet (curr.holdings.map (fun h => (h.instrument, h))) i
      = curr.holdings.find? (fun h => h.instrument == i) := by
    rw [← toDict_eq_map curr.holdings hndc]
    exact dictGet_toDict curr.holdings i hndc
  have hgp : dictGet (prev.holdings.map (fun h => (h.instrument, h))) i
      = prev.holdings.find? (fun h => h.instrument == i) := by
    rw [← toDict_eq_map prev.holdings hndp]
    exact dictGet_toDict prev.holdings i hndp
  rw [any_key_map_mk, any_key_map_mk, hgc, hgp, snapQty_eq, snapQty_eq]
  cases hfc : curr.holdings.find? (fun h => h.instrument == i) with
  | some ch =>
    simp only [Option.isSome_some, if_pos rfl, Option.isNone_some, Bool.false_and,
      Bool.false_eq_true, if_neg, Option.elim_some]
    simp
  | none =>
    cases hfp : prev.holdings.find? (fun h => h.instrument == i) with
    | some ph => simp
    | none => simp

theorem replayQty_buyList (d : ℕ) (i : String) :
    ∀ hs : List SnapshotHolding, (hs.map SnapshotHolding.instrument).Nodup →
    replayQty (hs.map (fun h =>
      (⟨d, h.instrument, TxnType.BUY, h.quantity, h.avg_cost,
        -(h.avg_cost * (h.quantity : ℚ))⟩ : Transaction))) i
      = (hs.find? (fun h => h.instrument == i)).elim 0 SnapshotHolding.quantity := by
  intro hs
  induction hs with
  | nil => intro _; rfl
  | cons h t ih =>
    intro hnd
    have hnd' : (∀ x ∈ t, ¬ x.instrument = h.instrument) ∧
        (t.map SnapshotHolding.instrument).Nodup := by
      simpa using hnd
    rw [List.map_cons, replayQty_cons, ih hnd'.2, List.find?_cons]
    cases hh : (h.instrument == i) with
    | true =>
      have hh' : h.instrument = i := by simpa using hh
      have hfind : t.find? (fun g => g.instrument == i) = none := by
        rw [List.find?_eq_none]
        intro g hg hgi
        exact hnd'.1 g hg (by simpa [hh'] using hgi)
      rw [hfind]
      simp [replayStep, hh]
    | false =>
      simp [replayStep, hh]

theorem inferForCurrEntry_date (pm : List (String × SnapshotHolding)) (d : ℕ)
    (e : String × SnapshotHolding) :
    ∀ t ∈ inferForCurrEntry pm d e, t.date = d := by
  intro t ht
  simp only [inferForCurrEntry] at ht
  cases hg : dictGet pm e.1 with
  | none =>
    simp only [hg, List.mem_singleton] at ht
    subst ht
    rfl
  | some prev_h =>
    simp only [hg] at ht
    by_cases hlt : prev_h.quantity < e.2.quantity
    · rw [if_pos hlt] at ht
      simp only [List.mem_singleton] at ht
      subst ht
      rfl
    · rw [if_neg hlt] at ht
      by_cases hgt : e.2.quantity < prev_h.quantity
      · rw [if_pos hgt] at ht
        simp only [List.mem_singleton] at ht
        subst ht
        rfl
      · rw [if_neg hgt] at ht
        simp at ht

theorem inferBetween_date (prev curr : Snapshot) :
    ∀ t ∈ inferBetweenSnapshots prev curr, t.date = curr.date := by
  intro t ht
  simp only [inferBetweenSnapshots] at ht
  rcases List.mem_append.mp ht with h1 | h1
  · rcases List.mem_flatten.mp h1 with ⟨l, hl, htl⟩
    rcases List.mem_map.mp hl with ⟨e, _, rfl⟩
    exact inferForCurrEntry_date _ curr.date e t htl
  · rcases List.mem_map.mp h1 with ⟨p, _, rfl⟩
    rfl

theorem inferPairs_date (rest : List Snapshot) :
    ∀ (prev : Snapshot), ∀ t ∈ inferPairs prev rest, ∃ s ∈ rest, t.date = s.date := by
  induction rest with
  | nil =>
    intro prev t ht
    simp [inferPairs] at ht
  | cons curr rest ih =>
    intro prev t ht
    simp only [inferPairs] at ht
    rcases List.mem_append.mp ht with h1 | h1
    · exact ⟨curr, by simp, inferBetween_date prev curr t h1⟩
    · rcases ih curr t h1 with ⟨s, hs, hd⟩
      exact ⟨s, List.mem_cons_of_mem _ hs, hd⟩

theorem replay_inferPairs (rest : List Snapshot) :
    ∀ (prev : Snapshot) (i : String),
    (∀ s ∈ prev :: rest, (s.holdings.map SnapshotHolding.instrument).Nodup) →
    List.Pairwise (fun a b => a.date < b.date) (prev :: rest) →
    ∀ s ∈ rest,
      replayQty ((inferPairs prev rest).filter (fun t => t.date ≤ s.date)) i
        = snapQty s i - snapQty prev i := by
  induction rest with
  | nil =>
    intro prev i _ _ s hs
    simp at hs
  | cons curr rest ih =>
    intro prev i hnd hpw s hs
    have hpw1 : (∀ b ∈ curr :: rest, prev.date < b.date) ∧
        List.Pairwise (fun a b => a.date < b.date) (curr :: rest) :=
      List.pairwise_cons.mp hpw
    have hpw2 : (∀ b ∈ rest, curr.date < b.date) ∧
        List.Pairwise (fun a b => a.date < b.date) rest :=
      List.pairwise_cons.mp hpw1.2
    simp only [inferPairs]
    rw [List.filter_append, replayQty_append]
    rcases List.mem_cons.mp hs with rfl | hs'
    · have h1 : (inferBetweenSnapshots prev s).filter
          (fun t => t.date ≤ s.date) = inferBetweenSnapshots prev s := by
        rw [List.filter_eq_self]
        intro t ht
        have := inferBetween_date prev s t ht
        simp [this]
      have h2 : (inferPairs s rest).filter (fun t => t.date ≤ s.date) = [] := by
        rw [List.filter_eq_nil_iff]
        intro t ht hle
        rcases inferPairs_date rest s t ht with ⟨s', hs', hd⟩
        have hlt := hpw2.1 s' hs'
        rw [hd] at hle
        simp at hle
        omega
      rw [h1, h2, replayQty_nil,
        replayQty_inferBetween prev s i (hnd prev (by simp)) (hnd s (by simp))]
      ring
    · have hcs : curr.date < s.date := hpw2.1 s hs'
      have h1 : (inferBetweenSnapshots prev curr).filter
          (fun t => t.date ≤ s.date) = inferBetweenSnapshots prev curr := by
        rw [List.filter_eq_self]
        intro t ht
        have := inferBetween_date prev curr t ht
        simp [this]
        omega
      rw [h1, replayQty_inferBetween prev curr i (hnd prev (by simp)) (hnd curr (by simp)),
        ih curr i (fun s' hs'' => hnd s' (List.mem_cons_of_mem _ hs'')) hpw1.2 s hs']
      ring

/-- C1: for a chronologically sorted snapshot list satisfying the
one-holding-per-instrument invariant, replaying the inferred transactions dated
up to any snapshot's date (BUY adds quantity, SELL subtracts, in emission =
date order) against an initially empty portfolio reproduces exactly that
snapshot's recorded per-instrument quantity (0 for instruments it does not
record). -/
theorem c1_replay_reproduces_quantities (snaps : List Snapshot)
    (hnd : ∀ s ∈ snaps, (s.holdings.map SnapshotHolding.instrument).Nodup)
    (hsorted : List.Pairwise (fun a b => a.date < b.date) snaps) :
    ∀ s ∈ snaps, ∀ i : String,
      replayQty ((infer_transactions snaps).filter (fun t => t.date ≤ s.date)) i
        = snapQty s i := by
  cases snaps with
  | nil => simp
  | cons s0 rest =>
    intro s hs i
    have hpw1 : (∀ b ∈ rest, s0.date < b.date) ∧
        List.Pairwise (fun a b => a.date < b.date) rest :=
      List.pairwise_cons.mp hsorted
    simp only [infer_transactions]
    rw [List.filter_append, replayQty_append]
    have hs0le : s0.date ≤ s.date := by
      rcases List.mem_cons.mp hs with rfl | hs'
      · exact le_refl _
      · exact le_of_lt (hpw1.1 s hs')
    have hbase : (s0.holdings.map (fun h =>
        (⟨s0.date, h.instrument, TxnType.BUY, h.quantity, h.avg_cost,
          -(h.avg_cost * (h.quantity : ℚ))⟩ : Transaction))).filter
        (fun t => t.date ≤ s.date)
        = s0.holdings.map (fun h =>
          (⟨s0.date, h.instrument, TxnType.BUY, h.quantity, h.avg_cost,
            -(h.avg_cost * (h.quantity : ℚ))⟩ : Transaction)) := by
      rw [List.filter_eq_self]
      intro t ht
      rcases List.mem_map.mp ht with ⟨h, _, rfl⟩
      simpa using hs0le
    rw [hbase, replayQty_buyList s0.date i s0.holdings (hnd s0 (by simp)),
      ← snapQty_eq ⟨s0.date, s0.holdings⟩ i]
    rcases List.mem_cons.mp hs with hseq | hs'
    · have h2 : (inferPairs s0 rest).filter (fun t => t.date ≤ s.date) = [] := by
        rw [List.filter_eq_nil_iff]
        intro t ht hle
        rcases inferPairs_date rest s0 t ht with ⟨s', hs', hd⟩
        have hlt := hpw1.1 s' hs'
        rw [hd, hseq] at hle
        simp at hle
        omega
      rw [h2, replayQty_nil, hseq]
      simp [snapQty]
    · rw [replay_inferPairs rest s0 i hnd hsorted s hs']
      have : snapQty ⟨s0.date, s0.holdings⟩ i = snapQty s0 i := rfl
      rw [this]
      ring

/-- Witness for `c1_replay_reproduces_quantities`: two snapshots (qty 10 on day
15, qty 4 on day 20); replaying the inferred transactions up to day 20 leaves a
position of exactly 4. -/
theorem c1_replay_witness :
    replayQty ((infer_transactions
        [Snapshot.mk 15 [⟨15, "R", 10, 100, 110, 1100, "NSE"⟩],
         Snapshot.mk 20 [⟨20, "R", 4, 100, 120, 480, "NSE"⟩]]).filter
        (fun t => t.date ≤ 20)) "R" = 4 := by
  have h := c1_replay_reproduces_quantities
    [Snapshot.mk 15 [⟨15, "R", 10, 100, 110, 1100, "NSE"⟩],
     Snapshot.mk 20 [⟨20, "R", 4, 100, 120, 480, "NSE"⟩]]
    (by decide) (by decide)
    (Snapshot.mk 20 [⟨20, "R", 4, 100, 120, 480, "NSE"⟩]) (by simp) "R"
  exact h.trans (by decide)

/-! ## XIRR degraded defaults (claim C9) -/

/-- C9: `compute_xirr` returns 0 when the transaction list is empty, and also
returns 0 (rather than failing) whenever the bracketed root-finder fails on the
NPV cash flows; those cash flows are every transaction's signed amount followed
by the terminal cash flow of the current portfolio value at the end date. -/
theorem c9_xirr_fallbacks (solver : List (ℕ × ℚ) → Option ℚ)
    (transactions : List Transaction) (current_value : ℚ) (end_date : ℕ) :
    compute_xirr solver [] current_value end_date = 0 ∧
    (solver (xirrCashflows transactions current_value end_date) = none →
      compute_xirr solver transactions current_value end_date = 0) ∧
    xirrCashflows transactions current_value end_date
      = transactions.map (fun t => (t.date, t.amount)) ++ [(end_date, current_value)] := by
  refine ⟨rfl, ?_, rfl⟩
  intro hnone
  unfold compute_xirr
  by_cases he : transactions.isEmpty
  · rw [if_pos he]
  · rw [if_neg he, hnone]

/-- Witness for `c9_xirr_fallbacks`: a solver that always fails yields 0 both
on an empty and on a nonempty transaction list. -/
theorem c9_xirr_fallbacks_witness :
    compute_xirr (fun _ => none) [] 100 365 = 0 ∧
    compute_xirr (fun _ => none) [⟨0, "A", TxnType.BUY, 1, 10, -10⟩] 100 365 = 0 := by
  have h := c9_xirr_fallbacks (fun _ => none)
    [⟨0, "A", TxnType.BUY, 1, 10, -10⟩] 100 365
  exact ⟨h.1, h.2.1 rfl⟩

/-! ## Price resolution order (claim C6) -/

/-- C6: `_resolve_price` implements exactly the spec's resolution chain —
(a) exact price-source hit, else (b) forward fill from the most recent
price-source date ≤ the requested date, else (c) the most recent snapshot LTP
at a date ≤ the requested date, else (d) absent; prices {day 15 ↦ 2500, day 17
↦ 2510} resolve day 16 to 2500; and an absent price contributes zero to the
day's portfolio value (the instrument's summand is dropped, the run continues
totally). -/
theorem c6_resolution_order :
    (∀ (ticker instrument : String) (dt : ℕ)
        (prices ltp_fallback : List (String × List (ℕ × ℚ))),
      resolvePrice ticker instrument dt prices ltp_fallback
        = specResolvePrice ticker instrument dt prices ltp_fallback) ∧
    resolvePrice "RELIANCE.NS" "RELIANCE" 16
      [("RELIANCE.NS", [(15, 2500), (17, 2510)])] [] = some 2500 ∧
    (∀ (tickers : List (String × String))
        (prices ltp_fallback : List (String × List (ℕ × ℚ)))
        (i : String) (q : ℤ) (hs : List (String × ℤ)) (dt : ℕ),
      resolvePrice ((dictGet tickers i).getD "") i dt prices ltp_fallback = none →
      dayValue tickers prices ltp_fallback ((i, q) :: hs) dt
        = dayValue tickers prices ltp_fallback hs dt) := by
  refine ⟨?_, by decide, ?_⟩
  · intro ticker instrument dt prices fb
    unfold resolvePrice specResolvePrice resolveMarket resolveLtp
    cases hg : dictGet prices ticker with
    | none =>
      cases hf : dictGet fb instrument with
      | none => simp [hf]
      | some fm => simp [hf]
    | some tp =>
      cases het : dictGet tp dt with
      | some p => simp [het]
      | none =>
        cases hm : (((tp.map Prod.fst).filter (fun d => d ≤ dt)).max?).bind
            (fun m => dictGet tp m) with
        | some p => simp [het, hm]
        | none =>
          cases hf : dictGet fb instrument with
          | none => simp [het, hm, hf]
          | some fm => simp [het, hm, hf]
  · intro tickers prices fb i q hs dt hnone
    unfold dayValue
    rw [List.map_cons, List.sum_cons, hnone]
    simp

/-- Witness for `c6_resolution_order`: with no market prices and no LTP
history, the price of an instrument resolves to `none` and a held position of
that instrument contributes nothing to the day's value. -/
theorem c6_resolution_order_witness :
    resolvePrice "X.NS" "X" 5 [] [] = specResolvePrice "X.NS" "X" 5 [] [] ∧
    dayValue [] [] [] [("X", 3)] 5 = dayValue [] [] [] [] 5 := by
  exact ⟨c6_resolution_order.1 "X.NS" "X" 5 [] [],
    c6_resolution_order.2.2 [] [] [] "X" 3 [] 5 rfl⟩

/-! ## Snapshot grouping and sorting (claim C7) -/

theorem groupByKey_go {α : Type} (key : α → ℕ) :
    ∀ (l : List α) (acc : List (ℕ × List α)) (prior : List α),
    (∀ d : ℕ, dictGet acc d
      = if (prior.filter (fun x => key x == d)).isEmpty then none
        else some (prior.filter (fun x => key x == d))) →
    ∀ d : ℕ, dictGet (l.foldl (fun m x =>
        dictInsert m (key x) (((dictGet m (key x)).getD []) ++ [x])) acc) d
      = if ((prior ++ l).filter (fun x => key x == d)).isEmpty then none
        else some ((prior ++ l).filter (fun x => key x == d)) := by
  intro l
  induction l with
  | nil =>
    intro acc prior hacc d
    simpa using hacc d
  | cons x rest ih =>
    intro acc prior hacc d
    rw [List.foldl_cons]
    have hstep : ∀ d2 : ℕ,
        dictGet (dictInsert acc (key x) (((dictGet acc (key x)).getD []) ++ [x])) d2
        = if ((prior ++ [x]).filter (fun y => key y == d2)).isEmpty then none
          else some ((prior ++ [x]).filter (fun y => key y == d2)) := by
      intro d2
      by_cases hd : d2 = key x
      · subst hd
        rw [dictGet_dictInsert_self]
        have hfil : (prior ++ [x]).filter (fun y => key y == key x)
            = prior.filter (fun y => key y == key x) ++ [x] := by
          rw [List.filter_append]
          simp
        rw [hfil]
        have hgot : ((dictGet acc (key x)).getD [])
            = prior.filter (fun y => key y == key x) := by
          rw [hacc (key x)]
          cases hemp : (prior.filter (fun y => key y == key x)).isEmpty with
          | true =>
            have hnil : prior.filter (fun y => key y == key x) = [] := by
              simpa using hemp
            simp [hnil]
          | false => simp
        rw [hgot]
        simp
      · rw [dictGet_dictInsert_ne _ _ _ _ hd, hacc d2]
        have hfx : (key x == d2) = false := by
          rw [beq_eq_false_iff_ne]
          exact fun h => hd h.symm
        rw [List.filter_append]
        simp [hfx]
    have h := ih _ (prior ++ [x]) hstep d
    simpa [List.append_assoc] using h

theorem groupByKey_get {α : Type} (key : α → ℕ) (l : List α) (d : ℕ) :
    dictGet (groupByKey key l) d
      = if (l.filter (fun x => key x == d)).isEmpty then none
        else some (l.filter (fun x => key x == d)) := by
  have h := groupByKey_go key l [] [] (fun d2 => by simp [dictGet]) d
  simpa using h

theorem foldl_groupInsert_keys_nodup {α : Type} (key : α → ℕ) :
    ∀ (l : List α) (acc : List (ℕ × List α)), (acc.map Prod.fst).Nodup →
    ((l.foldl (fun m x =>
        dictInsert m (key x) (((dictGet m (key x)).getD []) ++ [x])) acc).map
      Prod.fst).Nodup := by
  intro l
  induction l with
  | nil =>
    intro acc h
    simpa using h
  | cons x rest ih =>
    intro acc h
    rw [List.foldl_cons]
    exact ih _ (keys_nodup_dictInsert _ _ _ h)

/-- C7 (amended): `parse_snapshots_from_rows` always returns snapshots sorted
ascending by date and maps empty input to the empty list; when no two input
rows share the same (date, instrument) pair, every returned snapshot holds at
most one holding per instrument. -/
theorem c7_parse_snapshots (rows : List SnapshotHolding) :
    List.Sorted (fun a b => a.date ≤ b.date) (parse_snapshots_from_rows rows) ∧
    (rows = [] → parse_snapshots_from_rows rows = []) ∧
    (List.Pairwise (fun a b =>
        ¬ (a.date = b.date ∧ a.instrument = b.instrument)) rows →
      ∀ s ∈ parse_snapshots_from_rows rows,
        (s.holdings.map SnapshotHolding.instrument).Nodup) := by
  refine ⟨?_, ?_, ?_⟩
  · unfold parse_snapshots_from_rows
    by_cases he : rows.isEmpty
    · rw [if_pos he]
      exact List.sorted_nil
    · rw [if_neg he]
      refine List.Pairwise.imp ?_ (List.sorted_mergeSort ?_ ?_ _)
      · intro a b hab
        exact of_decide_eq_true hab
      · intro a b c hab hbc
        exact decide_eq_true (le_trans (of_decide_eq_true hab) (of_decide_eq_true hbc))
      · intro a b
        rcases le_total a.date b.date with h | h
        · simp [h]
        · simp [h]
  · intro h
    subst h
    rfl
  · intro hpw s hs
    unfold parse_snapshots_from_rows at hs
    by_cases he : rows.isEmpty
    · rw [if_pos he] at hs
      simp at hs
    · rw [if_neg he] at hs
      have hmem : s ∈ (groupByKey SnapshotHolding.date rows).map
          (fun p => Snapshot.mk (match p.2 with | h :: _ => h.date | [] => 0) p.2) :=
        ((List.mergeSort_perm _ _).mem_iff).mp hs
      rcases List.mem_map.mp hmem with ⟨p, hp, rfl⟩
      have hkeys : ((groupByKey SnapshotHolding.date rows).map Prod.fst).Nodup :=
        foldl_groupInsert_keys_nodup SnapshotHolding.date rows [] (by simp)
      have hget : dictGet (groupByKey SnapshotHolding.date rows) p.1 = some p.2 :=
        dictGet_of_mem _ p hkeys hp
      rw [groupByKey_get] at hget
      have hfil : p.2 = rows.filter (fun x => x.date == p.1) := by
        simp at hget
        exact hget.2.symm
      have hsub : (rows.filter (fun x => x.date == p.1)).Pairwise
          (fun a b => ¬ (a.date = b.date ∧ a.instrument = b.instrument)) :=
        List.Pairwise.sublist (List.filter_sublist rows) hpw
      have hinst : (rows.filter (fun x => x.date == p.1)).Pairwise
          (fun a b => a.instrument ≠ b.instrument) := by
        refine List.Pairwise.imp_of_mem ?_ hsub
        intro a b ha hb hnab heq
        apply hnab
        refine ⟨?_, heq⟩
        have hda : a.date = p.1 := by simpa using (List.mem_filter.mp ha).2
        have hdb : b.date = p.1 := by simpa using (List.mem_filter.mp hb).2
        rw [hda, hdb]
      show ((Snapshot.mk _ p.2).holdings.map SnapshotHolding.instrument).Nodup
      have : (Snapshot.mk (match p.2 with | h :: _ => h.date | [] => 0) p.2).holdings
          = p.2 := rfl
      rw [this, hfil]
      exact List.pairwise_map.mpr hinst

/-- C7 (counterexample): the claim as stated is false for arbitrary rows — two
rows with the same date and instrument are grouped into one snapshot that
contains two holdings for that instrument; nothing in the code deduplicates
them. -/
theorem c7_counterexample :
    ¬ (∀ s ∈ parse_snapshots_from_rows
        [⟨1, "A", 1, 1, 1, 1, "NSE"⟩, ⟨1, "A", 1, 1, 1, 1, "NSE"⟩],
        (s.holdings.map SnapshotHolding.instrument).Nodup) := by
  intro hall
  have hmem : Snapshot.mk 1 [⟨1, "A", 1, 1, 1, 1, "NSE"⟩, ⟨1, "A", 1, 1, 1, 1, "NSE"⟩]
      ∈ parse_snapshots_from_rows
        [⟨1, "A", 1, 1, 1, 1, "NSE"⟩, ⟨1, "A", 1, 1, 1, 1, "NSE"⟩] := by
    unfold parse_snapshots_from_rows
    rw [if_neg (by decide)]
    rw [((List.mergeSort_perm _ _).mem_iff)]
    apply List.mem_map.mpr
    refine ⟨(1, [⟨1, "A", 1, 1, 1, 1, "NSE"⟩, ⟨1, "A", 1, 1, 1, 1, "NSE"⟩]), ?_, rfl⟩
    decide
  have := hall _ hmem
  simp at this

/-- Witness for `c7_parse_snapshots`: rows with distinct (date, instrument)
pairs satisfy the amended hypothesis, so the parsed snapshots are sorted and
have unique instruments per snapshot. -/
theorem c7_parse_snapshots_witness :
    List.Sorted (fun a b => a.date ≤ b.date)
      (parse_snapshots_from_rows
        [⟨2, "A", 1, 1, 1, 1, "NSE"⟩, ⟨1, "A", 1, 1, 1, 1, "NSE"⟩]) ∧
    (∀ s ∈ parse_snapshots_from_rows
        [⟨2, "A", 1, 1, 1, 1, "NSE"⟩, ⟨1, "A", 1, 1, 1, 1, "NSE"⟩],
      (s.holdings.map SnapshotHolding.instrument).Nodup) :=
  ⟨(c7_parse_snapshots _).1, (c7_parse_snapshots _).2.2 (by decide)⟩

/-! ## Max drawdown (claim C8) -/

theorem ite_lt_max (a b : ℚ) : (if a < b then b else a) = max a b := by
  rcases le_or_lt b a with h | h
  · rw [if_neg (not_lt.mpr h), max_eq_left h]
  · rw [if_pos h, max_eq_right (le_of_lt h)]

theorem le_foldl_maxfst (dds : List (ℚ × ℕ)) :
    ∀ a : ℚ, a ≤ dds.foldl (fun x p => max x p.1) a := by
  induction dds with
  | nil =>
    intro a
    exact le_refl a
  | cons p rest ih =>
    intro a
    rw [List.foldl_cons]
    exact le_trans (le_max_left a p.1) (ih (max a p.1))

theorem mem_le_foldl_maxfst (dds : List (ℚ × ℕ)) :
    ∀ (a : ℚ) (p : ℚ × ℕ), p ∈ dds → p.1 ≤ dds.foldl (fun x q => max x q.1) a := by
  induction dds with
  | nil =>
    intro a p hp
    simp at hp
  | cons q rest ih =>
    intro a p hp
    rw [List.foldl_cons]
    rcases List.mem_cons.mp hp with rfl | hp'
    · exact le_trans (le_max_right a p.1) (le_foldl_maxfst rest (max a p.1))
    · exact ih (max a q.1) p hp'

theorem find?_congr_mem {α : Type} (p q : α → Bool) :
    ∀ l : List α, (∀ x ∈ l, p x = q x) → l.find? p = l.find? q := by
  intro l
  induction l with
  | nil =>
    intro _
    rfl
  | cons a rest ih =>
    intro h
    rw [List.find?_cons, List.find?_cons, h a (by simp)]
    cases q a with
    | true => rfl
    | false => exact ih (fun x hx => h x (List.mem_cons_of_mem _ hx))

/-- The running-maximum fold of `compute_max_drawdown`, characterized against
the drawdown-candidate list: the final maximum drawdown is the fold of `max`
over the candidates, and the trough is the date of the first candidate
attaining it (kept from the initial state when nothing improves on it). -/
theorem mdd_fold_spec (l : List DailyPortfolioValue) :
    ∀ (rm md : ℚ) (tr : Option ℕ), 0 ≤ md →
    l.foldl mddStep (rm, md, tr)
      = (l.foldl (fun a dpv => max a dpv.total_value) rm,
         (ddListAux rm l).foldl (fun a p => max a p.1) md,
         if md < (ddListAux rm l).foldl (fun a p => max a p.1) md then
           ((ddListAux rm l).find? (fun p =>
             (ddListAux rm l).foldl (fun a q => max a q.1) md ≤ p.1)).map Prod.snd
         else tr) := by
  induction l with
  | nil =>
    intro rm md tr hmd
    simp [ddListAux]
  | cons dpv rest ih =>
    intro rm md tr hmd
    rw [List.foldl_cons]
    simp only [ddListAux, List.foldl_cons]
    have hstep : mddStep (rm, md, tr) dpv
        = (max rm dpv.total_value,
           if md < (if 0 < max rm dpv.total_value then
               1 - dpv.total_value / max rm dpv.total_value else 0) then
             ((if 0 < max rm dpv.total_value then
               1 - dpv.total_value / max rm dpv.total_value else 0), some dpv.date)
           else (md, tr)) := by
      simp only [mddStep, ite_lt_max]
      by_cases hpos : 0 < max rm dpv.total_value
      · rw [if_pos hpos, if_pos hpos]
        by_cases hlt : md < 1 - dpv.total_value / max rm dpv.total_value
        · rw [if_pos hlt, if_pos hlt]
        · rw [if_neg hlt, if_neg hlt]
      · rw [if_neg hpos, if_neg hpos, if_neg (by simpa using hmd)]
    rw [hstep]
    set rm' := max rm dpv.total_value with hrm'
    set cand : ℚ := if 0 < rm' then 1 - dpv.total_value / rm' else 0 with hcand
    simp only [← hrm', ← hcand]
    by_cases hlt : md < cand
    · rw [if_pos hlt]
      have hcand0 : (0 : ℚ) ≤ cand := le_of_lt (lt_of_le_of_lt hmd hlt)
      rw [ih rm' cand (some dpv.date) hcand0]
      simp only [max_eq_right (le_of_lt hlt)]
      set dds' := ddListAux rm' rest with hdds'
      set M := dds'.foldl (fun a p => max a p.1) cand with hM
      have hmdM : md < M := lt_of_lt_of_le hlt (le_foldl_maxfst dds' cand)
      rw [if_pos hmdM]
      rcases lt_or_le cand M with hcM | hMc
      · rw [if_pos hcM,
          List.find?_cons_of_neg _ (by simpa using not_le.mpr hcM)]
      · rw [if_neg (not_lt.mpr hMc),
          List.find?_cons_of_pos _ (by simpa using hMc)]
        rfl
    · rw [if_neg hlt]
      have hcle : cand ≤ md := not_lt.mp hlt
      rw [ih rm' md tr hmd]
      simp only [max_eq_left hcle]
      set dds' := ddListAux rm' rest with hdds'
      set M := dds'.foldl (fun a p => max a p.1) md with hM
      by_cases hmdM : md < M
      · rw [if_pos hmdM, if_pos hmdM,
          List.find?_cons_of_neg _
            (by simpa using not_le.mpr (lt_of_le_of_lt hcle hmdM))]
      · rw [if_neg hmdM, if_neg hmdM]

/-- `compute_max_drawdown` implements the spec's running-maximum drawdown with
first-occurrence trough tie-breaking. -/
theorem compute_max_drawdown_eq_spec (series : List DailyPortfolioValue) :
    compute_max_drawdown series = maxDrawdownSpec series := by
  cases series with
  | nil => rfl
  | cons first rest =>
    simp only [compute_max_drawdown, maxDrawdownSpec]
    rw [mdd_fold_spec (first :: rest) first.total_value 0 none le_rfl]
    set dds := ddListAux first.total_value (first :: rest) with hdds
    set m := dds.foldl (fun a p => max a p.1) 0 with hm
    by_cases hpos : 0 < m
    · rw [if_pos hpos, if_pos hpos]
      have hcong : dds.find? (fun p => m ≤ p.1) = dds.find? (fun p => p.1 == m) := by
        apply find?_congr_mem
        intro p hp
        have hle := mem_le_foldl_maxfst dds 0 p hp
        by_cases heq : p.1 = m
        · have h1 : (decide (m ≤ p.1)) = true := decide_eq_true (le_of_eq heq.symm)
          have h2 : (p.1 == m) = true := by simp [heq]
          rw [h1, h2]
        · have h1 : (decide (m ≤ p.1)) = false :=
            decide_eq_false (not_le.mpr (lt_of_le_of_ne hle heq))
          have h2 : (p.1 == m) = false := beq_eq_false_iff_ne.mpr heq
          rw [h1, h2]
      rw [hcong]
    · rw [if_neg hpos, if_neg hpos]

theorem ddListAux_incr :
    ∀ (l : List DailyPortfolioValue) (rm : ℚ),
    List.Chain' (fun a b => a.total_value < b.total_value) l →
    (∀ x ∈ l.head?, rm ≤ x.total_value) →
    ddListAux rm l = l.map (fun dpv => ((0 : ℚ), dpv.date)) := by
  intro l
  induction l with
  | nil =>
    intro rm _ _
    rfl
  | cons x rest ih =>
    intro rm hch hle
    have hrm : rm ≤ x.total_value := hle x (by simp)
    have hmax : max rm x.total_value = x.total_value := max_eq_right hrm
    rcases List.chain'_cons'.mp hch with ⟨hhd, htl⟩
    have hcand : (if 0 < x.total_value then
        1 - x.total_value / x.total_value else 0) = (0 : ℚ) := by
      by_cases h : 0 < x.total_value
      · rw [if_pos h, div_self (ne_of_gt h)]
        ring
      · rw [if_neg h]
    simp only [ddListAux, List.map_cons]
    rw [hmax, hcand, ih x.total_value htl (fun y hy => le_of_lt (hhd y hy))]

theorem foldl_max_zeros (l : List DailyPortfolioValue) :
    (l.map (fun dpv => ((0 : ℚ), dpv.date))).foldl (fun a p => max a p.1) 0 = 0 := by
  induction l with
  | nil => rfl
  | cons x rest ih => simpa using ih

/-- C8: `compute_max_drawdown` returns `(0, none)` on the empty series; it
always agrees with the spec-modelled running-maximum algorithm (drawdown
`1 − value/running_max`, deepest drawdown with the first date attaining it);
and on a strictly increasing value series it returns drawdown 0 with no
trough. -/
theorem c8_max_drawdown (series : List DailyPortfolioValue) :
    compute_max_drawdown ([] : List DailyPortfolioValue) = (0, none) ∧
    compute_max_drawdown series = maxDrawdownSpec series ∧
    (List.Chain' (fun a b => a.total_value < b.total_value) series →
      compute_max_drawdown series = (0, none)) := by
  refine ⟨rfl, compute_max_drawdown_eq_spec series, ?_⟩
  intro hch
  rw [compute_max_drawdown_eq_spec series]
  cases series with
  | nil => rfl
  | cons first rest =>
    simp only [maxDrawdownSpec]
    rw [ddListAux_incr (first :: rest) first.total_value hch (by simp),
      foldl_max_zeros]
    simp

/-- Witness for `c8_max_drawdown`: a strictly increasing two-day series has
drawdown 0 and no trough date. -/
theorem c8_max_drawdown_witness :
    List.Chain' (fun (a b : DailyPortfolioValue) => a.total_value < b.total_value)
      [⟨1, 10, 0, 0⟩, ⟨2, 20, 0, 0⟩] ∧
    compute_max_drawdown [⟨1, 10, 0, 0⟩, ⟨2, 20, 0, 0⟩] = (0, none) := by
  have hch : List.Chain' (fun (a b : DailyPortfolioValue) =>
      a.total_value < b.total_value) [⟨1, 10, 0, 0⟩, ⟨2, 20, 0, 0⟩] := by
    rw [List.chain'_cons]
    exact ⟨by norm_num, by simp⟩
  exact ⟨hch, (c8_max_drawdown [⟨1, 10, 0, 0⟩, ⟨2, 20, 0, 0⟩]).2.2 hch⟩

/-! ## Daily series shape (claim C5) -/

theorem dayLoop_map_date (T : List (String × String))
    (P F : List (String × List (ℕ × ℚ))) (X : List (ℕ × List Transaction)) :
    ∀ (days : List ℕ) (st : DayState),
    (dayLoop T P F X st days).map DailyPortfolioValue.date = days := by
  intro days
  induction days with
  | nil =>
    intro st
    rfl
  | cons d rest ih =>
    intro st
    show ((dayStep T P F X st d).2).date ::
      (dayLoop T P F X (dayStep T P F X st d).1 rest).map DailyPortfolioValue.date
      = d :: rest
    rw [ih]
    rfl

theorem dayLoop_head_return (T : List (String × String))
    (P F : List (String × List (ℕ × ℚ))) (X : List (ℕ × List Transaction))
    (days : List ℕ) (st : DayState) (hprev : st.prev_value = none) :
    ∀ h : dayLoop T P F X st days ≠ [],
    ((dayLoop T P F X st days).head h).daily_return = 0 := by
  cases days with
  | nil =>
    intro h
    simp [dayLoop] at h
  | cons d rest =>
    intro h
    show ((dayStep T P F X st d).2).daily_return = 0
    simp [dayStep, hprev]

theorem dayLoop_chain (T : List (String × String))
    (P F : List (String × List (ℕ × ℚ))) (X : List (ℕ × List Transaction)) :
    ∀ (days : List ℕ) (st : DayState),
    List.Chain' (fun a b => b.daily_return =
      if 0 < a.total_value then (b.total_value - a.total_value) / a.total_value
      else 0) (dayLoop T P F X st days) := by
  intro days
  induction days with
  | nil =>
    intro st
    exact List.chain'_nil
  | cons d rest ih =>
    intro st
    show List.Chain' _ ((dayStep T P F X st d).2 ::
      dayLoop T P F X (dayStep T P F X st d).1 rest)
    rw [List.chain'_cons']
    refine ⟨?_, ih _⟩
    intro y hy
    cases rest with
    | nil => simp [dayLoop] at hy
    | cons d2 rest2 =>
      have hy' : (dayStep T P F X (dayStep T P F X st d).1 d2).2 = y := by
        simpa [dayLoop] using hy
      subst hy'
      rfl

/-- C5: for a nonempty snapshot list and `startD ≤ endD`,
`build_daily_portfolio_series` emits exactly one record per calendar day of
`[startD, endD]` in ascending date order (its dates are precisely
`startD, startD+1, …, endD`); the first day's return is 0, and every later
day's return is `(total_value − prev)/prev` when the previous day's total value
is positive and 0 otherwise. -/
theorem c5_daily_series_shape (snapshots : List Snapshot)
    (transactions : List Transaction) (prices : List (String × List (ℕ × ℚ)))
    (startD endD : ℕ) (hne : snapshots ≠ []) (hle : startD ≤ endD) :
    (build_daily_portfolio_series snapshots transactions prices startD endD).map
        DailyPortfolioValue.date
      = (List.range (endD - startD + 1)).map (fun k => startD + k) ∧
    (build_daily_portfolio_series snapshots transactions prices startD endD).length
      = endD - startD + 1 ∧
    (∀ h : build_daily_portfolio_series snapshots transactions prices startD endD ≠ [],
      ((build_daily_portfolio_series snapshots transactions prices
        startD endD).head h).daily_return = 0) ∧
    List.Chain' (fun a b => b.daily_return =
      if 0 < a.total_value then (b.total_value - a.total_value) / a.total_value
      else 0) (build_daily_portfolio_series snapshots transactions prices startD endD) := by
  have hnei : snapshots.isEmpty = false := List.isEmpty_eq_false.mpr hne
  have hrange : endD + 1 - startD = endD - startD + 1 := by omega
  unfold build_daily_portfolio_series
  rw [if_neg (by simp [hnei])]
  refine ⟨?_, ?_, ?_, ?_⟩
  · rw [dayLoop_map_date, hrange]
  · have hmd := dayLoop_map_date (buildInstrumentTickers snapshots) prices
      (buildLtpFallback snapshots) (groupByKey Transaction.date transactions)
      ((List.range (endD + 1 - startD)).map (fun i => startD + i)) ⟨[], 0, none⟩
    have hlen := congrArg List.length hmd
    simpa [hrange] using hlen
  · intro h
    exact dayLoop_head_return _ _ _ _ _ _ rfl h
  · exact dayLoop_chain _ _ _ _ _ _

/-- Witness for `c5_daily_series_shape`: one snapshot, range day 3 to day 5 —
three daily records. -/
theorem c5_daily_series_shape_witness :
    (build_daily_portfolio_series [Snapshot.mk 3 []] [] [] 3 5).length = 3 :=
  (c5_daily_series_shape [Snapshot.mk 3 []] [] [] 3 5
    (by simp) (by omega)).2.1

/-! ## Holdings positivity in the daily series (claim C10) -/

theorem applyTxn_pos (hs : List (String × ℤ)) (tc : ℚ) (t : Transaction)
    (hq : 0 < t.quantity) (hpos : ∀ p ∈ hs, 0 < p.2) :
    ∀ p ∈ (applyTxn hs tc t).1, 0 < p.2 := by
  intro p hp
  cases htt : t.type with
  | BUY =>
    simp only [applyTxn, htt] at hp
    rcases mem_dictInsert _ _ _ _ hp with hpe | hpe
    · subst hpe
      simp only
      cases hg : dictGet hs t.instrument with
      | none => simp [hg, hq]
      | some v =>
        have hv := hpos (t.instrument, v) (dictGet_eq_some_mem _ _ _ hg)
        simp only [hg, Option.getD_some]
        have : (0 : ℤ) < v := hv
        omega
    · exact hpos p hpe
  | SELL =>
    simp only [applyTxn, htt] at hp
    by_cases hle : (dictGet hs t.instrument).getD 0 - t.quantity ≤ 0
    · rw [if_pos hle] at hp
      have hp' := List.mem_filter.mp hp
      rcases mem_dictInsert _ _ _ _ hp'.1 with hpe | hpe
      · have := hp'.2
        rw [hpe] at this
        simp at this
      · exact hpos p hpe
    · rw [if_neg hle] at hp
      rcases mem_dictInsert _ _ _ _ hp with hpe | hpe
      · subst hpe
        simp only
        omega
      · exact hpos p hpe

theorem applyTxns_pos (txns : List Transaction) :
    ∀ (hs : List (String × ℤ)) (tc : ℚ),
    (∀ t ∈ txns, 0 < t.quantity) → (∀ p ∈ hs, 0 < p.2) →
    ∀ p ∈ (applyTxns hs tc txns).1, 0 < p.2 := by
  induction txns with
  | nil =>
    intro hs tc _ hpos p hp
    exact hpos p hp
  | cons t rest ih =>
    intro hs tc hq hpos p hp
    exact ih (applyTxn hs tc t).1 (applyTxn hs tc t).2
      (fun t' ht' => hq t' (List.mem_cons_of_mem _ ht'))
      (applyTxn_pos hs tc t (hq t (by simp)) hpos) p hp

theorem dictGet_filter_ne_none {α : Type} (m : List (String × α)) (k : String) :
    dictGet (m.filter (fun p => p.1 != k)) k = none := by
  unfold dictGet
  have hfind : List.find? (fun p => p.1 == k)
      (m.filter (fun p => p.1 != k)) = none := by
    rw [List.find?_eq_none]
    intro x hx
    have hxf := (List.mem_filter.mp hx).2
    simp only [bne_iff_ne, ne_eq] at hxf
    simp [hxf]
  rw [hfind]
  rfl

theorem applyTxn_sell_removes (hs : List (String × ℤ)) (tc : ℚ) (t : Transaction)
    (hsell : t.type = TxnType.SELL)
    (hle : (dictGet hs t.instrument).getD 0 - t.quantity ≤ 0) :
    dictGet (applyTxn hs tc t).1 t.instrument = none := by
  simp only [applyTxn, hsell]
  rw [if_pos hle]
  exact dictGet_filter_ne_none _ _

theorem dayTxns_subset (txns : List Transaction) (d : ℕ) :
    ∀ t ∈ (dictGet (groupByKey Transaction.date txns) d).getD [], t ∈ txns := by
  intro t ht
  rw [groupByKey_get] at ht
  by_cases hemp : (txns.filter (fun x => Transaction.date x == d)).isEmpty
  · rw [if_pos hemp] at ht
    simp at ht
  · rw [if_neg hemp] at ht
    have ht' : t ∈ txns ∧ t.date = d := by simpa using ht
    exact ht'.1

/-- C10: with positive-quantity transactions (the spec's Transaction
invariant), applying any day's transactions keeps every instrument still in
the holdings map at a strictly positive quantity; a SELL bringing an
instrument's quantity to 0 or below — including a SELL larger than the held
quantity — deletes the instrument from the map; and `dayStep` (which values
the portfolio from this map) preserves the positivity invariant day over day,
so valuation never multiplies a price by a nonpositive quantity. -/
theorem c10_no_nonpositive_holdings (txns : List Transaction) :
    (∀ (hs : List (String × ℤ)) (tc : ℚ),
      (∀ t ∈ txns, 0 < t.quantity) → (∀ p ∈ hs, 0 < p.2) →
      ∀ p ∈ (applyTxns hs tc txns).1, 0 < p.2) ∧
    (∀ (hs : List (String × ℤ)) (tc : ℚ) (t : Transaction),
      t.type = TxnType.SELL →
      (dictGet hs t.instrument).getD 0 - t.quantity ≤ 0 →
      dictGet (applyTxn hs tc t).1 t.instrument = none) ∧
    (∀ (T : List (String × String)) (P F : List (String × List (ℕ × ℚ)))
        (st : DayState) (d : ℕ),
      (∀ t ∈ txns, 0 < t.quantity) → (∀ p ∈ st.holdings_state, 0 < p.2) →
      ∀ p ∈ (dayStep T P F (groupByKey Transaction.date txns) st d).1.holdings_state,
        0 < p.2) := by
  refine ⟨fun hs tc hq hpos => applyTxns_pos txns hs tc hq hpos,
    fun hs tc t hsell hle => applyTxn_sell_removes hs tc t hsell hle, ?_⟩
  intro T P F st d hq hpos p hp
  exact applyTxns_pos _ st.holdings_state st.total_cost
    (fun t ht => hq t (dayTxns_subset txns d t ht)) hpos p hp

/-- Witness for `c10_no_nonpositive_holdings`: a BUY of 2 then a SELL of 5 of
the same instrument leaves a holdings map whose entries are all positive (in
fact the instrument is deleted). -/
theorem c10_no_nonpositive_holdings_witness :
    ∀ p ∈ (applyTxns [] 0
      [⟨5, "A", TxnType.BUY, 2, 10, -20⟩,
       ⟨6, "A", TxnType.SELL, 5, 11, 55⟩]).1, 0 < p.2 :=
  (c10_no_nonpositive_holdings
    [⟨5, "A", TxnType.BUY, 2, 10, -20⟩, ⟨6, "A", TxnType.SELL, 5, 11, 55⟩]).1
    [] 0 (by decide) (by simp)

end StocksAnalysis
